import Mathlib

/-!
Verification of the clicknest event-analytics server against its
natural-language specification.

The Go sources are shallowly embedded: pure Go functions become Lean
functions over `Nat`-valued bytes and `String`s, stateful code becomes
explicit state passing, and fallible code returns `Option`/`Except`.
Machine words are `Nat` with explicit `% 2^32` where overflow matters.
Standard-library primitives that the repository calls but does not define
(SHA-256, base64, AES-GCM, URL parsing) are either implemented concretely
from their public definition (SHA-256, base64) or abstracted as explicit
parameters with only the properties the library documents (AEAD, URL
parser).
-/

namespace Clicknest

/-! ### SHA-256 (crypto/sha256)

Concrete implementation of FIPS 180-4 SHA-256 over byte lists
(bytes are `Nat < 256`), modelling Go's `crypto/sha256` as used by
`internal/ingest/fingerprint.go`. -/

/-- Addition modulo 2^32. -/
def add32 (a b : Nat) : Nat := (a + b) % 4294967296

/-- Right rotation of a 32-bit word. -/
def rotr32 (x n : Nat) : Nat := ((x >>> n) ||| (x <<< (32 - n))) &&& 4294967295

/-- Big sigma-0 function of SHA-256. -/
def bsig0 (x : Nat) : Nat := rotr32 x 2 ^^^ rotr32 x 13 ^^^ rotr32 x 22

/-- Big sigma-1 function of SHA-256. -/
def bsig1 (x : Nat) : Nat := rotr32 x 6 ^^^ rotr32 x 11 ^^^ rotr32 x 25

/-- Small sigma-0 function of SHA-256. -/
def ssig0 (x : Nat) : Nat := rotr32 x 7 ^^^ rotr32 x 18 ^^^ (x >>> 3)

/-- Small sigma-1 function of SHA-256. -/
def ssig1 (x : Nat) : Nat := rotr32 x 17 ^^^ rotr32 x 19 ^^^ (x >>> 10)

/-- Choice function of SHA-256; `¬x` is taken inside 32 bits. -/
def ch32 (x y z : Nat) : Nat := (x &&& y) ^^^ ((x ^^^ 4294967295) &&& z)

/-- Majority function of SHA-256. -/
def maj32 (x y z : Nat) : Nat := ((x &&& y) ^^^ (x &&& z)) ^^^ (y &&& z)

/-- Round constants of SHA-256. -/
def sha256K : List Nat :=
  [1116352408, 1899447441, 3049323471, 3921009573, 961987163, 1508970993,
   2453635748, 2870763221, 3624381080, 310598401, 607225278, 1426881987,
   1925078388, 2162078206, 2614888103, 3248222580, 3835390401, 4022224774,
   264347078, 604807628, 770255983, 1249150122, 1555081692, 1996064986,
   2554220882, 2821834349, 2952996808, 3210313671, 3336571891, 3584528711,
   113926993, 338241895, 666307205, 773529912, 1294757372, 1396182291,
   1695183700, 1986661051, 2177026350, 2456956037, 2730485921, 2820302411,
   3259730800, 3345764771, 3516065817, 3600352804, 4094571909, 275423344,
   430227734, 506948616, 659060556, 883997877, 958139571, 1322822218,
   1537002063, 1747873779, 1955562222, 2024104815, 2227730452, 2361852424,
   2428436474, 2756734187, 3204031479, 3329325298]

/-- Initial hash state of SHA-256. -/
def sha256H0 : List Nat :=
  [1779033703, 3144134277, 1013904242, 2773480762,
   1359893119, 2600822924, 528734635, 1541459225]

/-- Big-endian byte rendering of a value into `n` bytes. -/
def toBytesBE (n v : Nat) : List Nat :=
  (List.range n).map (fun i => (v >>> (8 * (n - 1 - i))) % 256)

/-- Padding step of SHA-256: append 0x80, zeros, and the 64-bit bit length. -/
def sha256Pad (msg : List Nat) : List Nat :=
  let padZeros := (119 - msg.length % 64) % 64
  msg ++ [0x80] ++ List.replicate padZeros 0 ++ toBytesBE 8 (8 * msg.length)

/-- Splitting into 64-byte blocks, with a fuel argument so that the
recursion is structural (the fuel is an upper bound on the block count). -/
def chunks64Aux : Nat → List Nat → List (List Nat)
  | 0, _ => []
  | _ + 1, [] => []
  | fuel + 1, l => l.take 64 :: chunks64Aux fuel (l.drop 64)

/-- Splitting of the padded message into 64-byte blocks. -/
def chunks64 (l : List Nat) : List (List Nat) := chunks64Aux l.length l

/-- Big-endian packing of bytes into 32-bit words. -/
def bytesToWords : List Nat → List Nat
  | b0 :: b1 :: b2 :: b3 :: rest => (((b0 * 256 + b1) * 256 + b2) * 256 + b3) :: bytesToWords rest
  | _ => []

/-- Message-schedule extension producing the 64 words of one block. -/
def sha256Schedule (ws : List Nat) : List Nat :=
  (List.range 48).foldl
    (fun w _ =>
      let t := w.length
      w ++ [add32 (add32 (ssig1 (w.getD (t - 2) 0)) (w.getD (t - 7) 0))
                  (add32 (ssig0 (w.getD (t - 15) 0)) (w.getD (t - 16) 0))])
    ws

/-- One round of the SHA-256 compression function on state `[a,b,c,d,e,f,g,h]`. -/
def sha256Round (st : List Nat) (kw : Nat × Nat) : List Nat :=
  match st with
  | [a, b, c, d, e, f, g, h] =>
    let t1 := add32 h (add32 (bsig1 e) (add32 (ch32 e f g) (add32 kw.1 kw.2)))
    let t2 := add32 (bsig0 a) (maj32 a b c)
    [add32 t1 t2, a, b, c, add32 d t1, e, f, g]
  | _ => st

/-- Compression of one 64-byte block into the running hash state. -/
def sha256Block (h : List Nat) (block : List Nat) : List Nat :=
  let ws := sha256Schedule (bytesToWords block)
  let fin := (sha256K.zip ws).foldl sha256Round h
  List.zipWith add32 h fin

/-- SHA-256 digest (32 bytes) of a byte-list message. -/
def sha256 (msg : List Nat) : List Nat :=
  (((chunks64 (sha256Pad msg)).foldl sha256Block sha256H0).map (toBytesBE 4)).flatten

/-! ### Fingerprint engine (internal/ingest/fingerprint.go)

Go strings are UTF-8 byte sequences; `strBytes` is the byte sequence of a
Lean `String` under UTF-8. `ComputeFingerprint` mirrors the Go function:
normalize the five locator parts, hash them with a single `|` byte written
between consecutive parts, hex-encode, and keep the first 16 characters. -/

/-- Whitespace predicate of Go's `unicode.IsSpace` on the Latin-1 range
(the blank classes beyond U+00FF are not relevant to any claim and are
omitted). -/
def goIsSpace (c : Char) : Bool :=
  c = ' ' || c = '\t' || c = '\n' || c = '\x0b' || c = '\x0c' || c = '\r' ||
  c = '\x85' || c = '\xa0'

/-- Go `strings.TrimSpace`: drop leading and trailing whitespace. -/
def trimChars (l : List Char) : List Char :=
  ((l.dropWhile goIsSpace).reverse.dropWhile goIsSpace).reverse

/-- Go `strings.ToLower` on one character (ASCII case mapping; the claims
only exercise ASCII). -/
def goToLowerChar (c : Char) : Char :=
  if 'A' ≤ c && c ≤ 'Z' then Char.ofNat (c.toNat + 32) else c

/-- Go `strings.ToLower` over a character sequence. -/
def lowerChars (l : List Char) : List Char := l.map goToLowerChar

/-- UTF-8 encoding of one character. -/
def utf8Char (c : Char) : List Nat :=
  let n := c.toNat
  if n < 128 then [n]
  else if n < 2048 then [192 ||| (n >>> 6), 128 ||| (n &&& 63)]
  else if n < 65536 then
    [224 ||| (n >>> 12), 128 ||| ((n >>> 6) &&& 63), 128 ||| (n &&& 63)]
  else
    [240 ||| (n >>> 18), 128 ||| ((n >>> 12) &&& 63), 128 ||| ((n >>> 6) &&& 63),
     128 ||| (n &&& 63)]

/-- UTF-8 byte sequence of a character sequence. -/
def bytesOfChars (l : List Char) : List Nat := (l.map utf8Char).flatten

/-- UTF-8 byte sequence of a string (the Go `[]byte(s)` conversion). -/
def strBytes (s : String) : List Nat := bytesOfChars s.data

/-- Lowercase hex digit for a value below 16 (Go `encoding/hex` alphabet). -/
def hexDigitChar (n : Nat) : Char := "0123456789abcdef".data.getD n '0'

/-- Two lowercase hex characters of one byte. -/
def hexByteChars (b : Nat) : List Char := [hexDigitChar (b / 16), hexDigitChar (b % 16)]

/-- Concatenation of byte-list parts with a single `|` byte (0x7c = 124)
between consecutive parts, exactly as the Go hashing loop writes them. -/
def joinBar : List (List Nat) → List Nat
  | [] => []
  | [p] => p
  | p :: rest => p ++ 124 :: joinBar rest

/-- Normalized parts of the fingerprint input: lowercase and trimmed on the
three element locator parts, trimmed only on the two path parts. -/
def fingerprintParts (elementTag elementID elementClasses parentPath urlPath : String) :
    List (List Char) :=
  [lowerChars (trimChars elementTag.data), lowerChars (trimChars elementID.data),
   lowerChars (trimChars elementClasses.data), trimChars parentPath.data,
   trimChars urlPath.data]

/-- ComputeFingerprint from internal/ingest/fingerprint.go: SHA-256 over the
normalized parts separated by `|`, hex-encoded, first 16 characters. -/
def ComputeFingerprint (elementTag elementID elementClasses parentPath urlPath : String) :
    String :=
  String.mk ((((sha256 (joinBar ((fingerprintParts elementTag elementID elementClasses
    parentPath urlPath).map bytesOfChars))).map hexByteChars).flatten).take 16)

/-! ### Facts about the fingerprint engine -/

theorem bytesOfChars_append (a b : List Char) :
    bytesOfChars (a ++ b) = bytesOfChars a ++ bytesOfChars b := by
  simp [bytesOfChars]

theorem strBytes_append (a b : String) : strBytes (a ++ b) = strBytes a ++ strBytes b := by
  simp [strBytes, String.data_append, bytesOfChars]

/-- Tail of a `|`-joined byte sequence: each part preceded by the `|` byte. -/
def barTail (xs : List (List Nat)) : List Nat := (xs.map (fun x => 124 :: x)).flatten

theorem joinBar_cons (x : List Nat) (xs : List (List Nat)) :
    joinBar (x :: xs) = x ++ barTail xs := by
  induction xs generalizing x with
  | nil => simp [joinBar, barTail]
  | cons y ys ih => simp only [joinBar, ih y, barTail, List.map_cons, List.flatten_cons]; simp

theorem intercalate_go_bytes (acc : String) (as : List String) :
    strBytes (String.intercalate.go acc "|" as) = strBytes acc ++ barTail (as.map strBytes) := by
  induction as generalizing acc with
  | nil => simp [String.intercalate.go, barTail]
  | cons a as ih =>
    show strBytes (String.intercalate.go (acc ++ "|" ++ a) "|" as) = _
    rw [ih, strBytes_append, strBytes_append]
    have hbar : strBytes "|" = [124] := rfl
    simp [hbar, barTail]

theorem strBytes_intercalate (ps : List String) :
    strBytes (String.intercalate "|" ps) = joinBar (ps.map strBytes) := by
  cases ps with
  | nil => rfl
  | cons p rest =>
    show strBytes (String.intercalate.go p "|" rest) = _
    rw [intercalate_go_bytes, List.map_cons, joinBar_cons]

theorem sha256Round_length (st : List Nat) (kw : Nat × Nat) :
    (sha256Round st kw).length = st.length := by
  unfold sha256Round
  split <;> simp

theorem foldl_round_length (l : List (Nat × Nat)) (st : List Nat) :
    (l.foldl sha256Round st).length = st.length := by
  induction l generalizing st with
  | nil => rfl
  | cons x xs ih => rw [List.foldl_cons, ih, sha256Round_length]

theorem sha256Block_length (h b : List Nat) : (sha256Block h b).length = h.length := by
  unfold sha256Block
  rw [List.length_zipWith, foldl_round_length]
  omega

theorem foldl_block_length (bs : List (List Nat)) (st : List Nat) :
    (bs.foldl sha256Block st).length = st.length := by
  induction bs generalizing st with
  | nil => rfl
  | cons b bs ih => rw [List.foldl_cons, ih, sha256Block_length]

theorem toBytesBE_length (n v : Nat) : (toBytesBE n v).length = n := by
  simp [toBytesBE]

theorem sum_map_const {α : Type} (l : List α) (k : Nat) :
    (l.map (fun _ => k)).sum = k * l.length := by
  induction l with
  | nil => simp
  | cons x xs ih => simp [ih]; ring

theorem sha256_length (msg : List Nat) : (sha256 msg).length = 32 := by
  unfold sha256
  rw [List.length_flatten, List.map_map]
  have h8 : ((chunks64 (sha256Pad msg)).foldl sha256Block sha256H0).length = 8 :=
    foldl_block_length _ _
  have : (List.length ∘ toBytesBE 4) = fun _ : Nat => 4 := by
    funext v; simp [toBytesBE_length]
  rw [this, sum_map_const, h8]

theorem hexFlatten_length (bs : List Nat) : ((bs.map hexByteChars).flatten).length = 2 * bs.length := by
  rw [List.length_flatten, List.map_map]
  have : (List.length ∘ hexByteChars) = fun _ : Nat => 2 := by
    funext b; simp [hexByteChars]
  rw [this, sum_map_const]

theorem computeFingerprint_data (t i c p u : String) :
    (ComputeFingerprint t i c p u).data
      = (((sha256 (joinBar ((fingerprintParts t i c p u).map bytesOfChars))).map
          hexByteChars).flatten.take 16) := by
  unfold ComputeFingerprint
  with_reducible rfl

theorem hexDigitChar_mem (n : Nat) : hexDigitChar n ∈ "0123456789abcdef".data := by
  by_cases h : n < 16
  · exact (by decide : ∀ m < 16, hexDigitChar m ∈ "0123456789abcdef".data) n h
  · have : hexDigitChar n = '0' :=
      List.getD_eq_default _ _ (by simp only [not_lt] at h; exact le_trans (by decide) h)
    rw [this]; decide

/-- C1: ComputeFingerprint returns exactly the first 16 characters of the
lowercase hex SHA-256 digest of the five normalized parts joined by a
single ASCII `|`; it is a pure (hence deterministic) function, its result
always has 16 characters drawn from the lowercase hex alphabet, and two
inputs whose parts agree after trimming (and case folding on the first
three parts) produce equal fingerprints. -/
theorem C1_computeFingerprint_spec (t i c p u : String) :
    (ComputeFingerprint t i c p u
      = String.mk (((sha256 (strBytes (String.intercalate "|"
          [String.mk (lowerChars (trimChars t.data)),
           String.mk (lowerChars (trimChars i.data)),
           String.mk (lowerChars (trimChars c.data)),
           String.mk (trimChars p.data),
           String.mk (trimChars u.data)]))).map hexByteChars).flatten.take 16))
    ∧ (ComputeFingerprint t i c p u).length = 16
    ∧ (∀ ch ∈ (ComputeFingerprint t i c p u).data, ch ∈ "0123456789abcdef".data)
    ∧ (∀ t' i' c' p' u' : String,
        lowerChars (trimChars t.data) = lowerChars (trimChars t'.data) →
        lowerChars (trimChars i.data) = lowerChars (trimChars i'.data) →
        lowerChars (trimChars c.data) = lowerChars (trimChars c'.data) →
        trimChars p.data = trimChars p'.data →
        trimChars u.data = trimChars u'.data →
        ComputeFingerprint t i c p u = ComputeFingerprint t' i' c' p' u') := by
  refine ⟨?_, ?_, ?_, ?_⟩
  · rw [strBytes_intercalate]
    rfl
  · show (((sha256 _).map hexByteChars).flatten.take 16).length = 16
    rw [List.length_take, hexFlatten_length, sha256_length]
    rfl
  · intro ch hch
    rw [computeFingerprint_data] at hch
    have h1 := List.mem_of_mem_take hch
    obtain ⟨l, hl, hcl⟩ := List.mem_flatten.mp h1
    obtain ⟨b, _, rfl⟩ := List.mem_map.mp hl
    simp only [hexByteChars, List.mem_cons, List.not_mem_nil, or_false] at hcl
    rcases hcl with h | h
    · rw [h]; exact hexDigitChar_mem _
    · rw [h]; exact hexDigitChar_mem _
  · intro t' i' c' p' u' h1 h2 h3 h4 h5
    have hp : fingerprintParts t i c p u = fingerprintParts t' i' c' p' u' := by
      unfold fingerprintParts
      rw [h1, h2, h3, h4, h5]
    unfold ComputeFingerprint
    rw [hp]

/-- C1 witness: Scenario A of the specification, with the normalization
hypotheses discharged on concrete inputs. -/
theorem C1_computeFingerprint_spec_witness :
    ComputeFingerprint "Button" "submit-btn" "btn btn-primary" "form>div" "/checkout"
      = ComputeFingerprint "  BUTTON  " "  SUBMIT-BTN  " "  BTN BTN-PRIMARY  "
          "form>div" "/checkout"
    ∧ (ComputeFingerprint "Button" "submit-btn" "btn btn-primary" "form>div" "/checkout").length
        = 16 :=
  ⟨(C1_computeFingerprint_spec "Button" "submit-btn" "btn btn-primary" "form>div"
      "/checkout").2.2.2 "  BUTTON  " "  SUBMIT-BTN  " "  BTN BTN-PRIMARY  " "form>div"
      "/checkout" (by decide) (by decide) (by decide) (by decide) (by decide),
   (C1_computeFingerprint_spec "Button" "submit-btn" "btn btn-primary" "form>div"
      "/checkout").2.1⟩

/-! ### Ingestion validator (src/unnamed/part_002, package ingest)

Go's `net/url` is not part of the repository; the two calls the validator
makes into it are abstracted as an explicit parameter `URLKit`:
`parseRequestURI` tells whether `url.ParseRequestURI` succeeds, and
`parsePath` is the `Path` field of `url.Parse` (`none` when parsing fails). -/

/-- Ingestion event as decoded from the request body (fields that the
validator, fingerprint and handler touch). -/
structure IngestEvent where
  eventType : String
  elementTag : String
  elementID : String
  elementClasses : String
  elementText : String
  ariaLabel : String
  parentPath : String
  url : String
  urlPath : String
  pageTitle : String
  referrer : String
  screenWidth : Int
  screenHeight : Int
  timestamp : Int
  deriving DecidableEq

/-- Ingestion payload. -/
structure IngestPayload where
  events : List IngestEvent
  sessionID : String
  distinctID : String
  deriving DecidableEq

/-- Validation error kinds of the ingest package. -/
inductive ValErr where
  | emptyBatch | batchTooLarge | missingType | invalidType
  | missingURL | invalidURL | missingSession
  deriving DecidableEq

/-- Batch size bound (`maxBatchSize` in the Go source). -/
def maxBatchSize : Nat := 100

/-- Text length bound (`maxTextLength` in the Go source). -/
def maxTextLength : Nat := 500

/-- Membership in the `validEventTypes` map. -/
def validEventTypes (t : String) : Bool :=
  t = "click" || t = "pageview" || t = "input" || t = "submit" || t = "custom" || t = "error"

/-- Abstraction of the two `net/url` calls made by the validator. -/
structure URLKit where
  parseRequestURI : String → Bool
  parsePath : String → Option String

/-- Truncate from the ingest package: trim whitespace, keep the value when
its rune count is within the bound, otherwise keep the first `maxLen`
runes. -/
def truncate (s : String) (maxLen : Nat) : String :=
  if (trimChars s.data).length ≤ maxLen then String.mk (trimChars s.data)
  else String.mk ((trimChars s.data).take maxLen)

/-- Normalization half of `validateEvent`: truncate the text fields and
derive `url_path` from the URL when it was not provided. -/
def normalizeEvent (k : URLKit) (e : IngestEvent) : IngestEvent :=
  let e1 := { e with elementText := truncate e.elementText maxTextLength,
                     ariaLabel := truncate e.ariaLabel maxTextLength,
                     pageTitle := truncate e.pageTitle maxTextLength,
                     parentPath := truncate e.parentPath 1000 }
  if e1.urlPath = "" then
    match k.parsePath e1.url with
    | some p => { e1 with urlPath := p }
    | none => e1
  else e1

/-- validateEvent from the ingest package: field checks in source order,
then in-place normalization (modelled by returning the updated event). -/
def validateEvent (k : URLKit) (e : IngestEvent) : Except ValErr IngestEvent :=
  if e.eventType = "" then .error .missingType
  else if ¬ validEventTypes e.eventType then .error .invalidType
  else if e.url = "" then .error .missingURL
  else if ¬ k.parseRequestURI e.url then .error .invalidURL
  else .ok (normalizeEvent k e)

/-- Left-to-right validation of all events, stopping at the first error. -/
def validateEvents (k : URLKit) : List IngestEvent → Except ValErr (List IngestEvent)
  | [] => .ok []
  | e :: rest => do
    let e' ← validateEvent k e
    let rest' ← validateEvents k rest
    .ok (e' :: rest')

/-- ValidatePayload from the ingest package. -/
def ValidatePayload (k : URLKit) (p : IngestPayload) : Except ValErr IngestPayload :=
  if p.events.length = 0 then .error .emptyBatch
  else if p.events.length > maxBatchSize then .error .batchTooLarge
  else if p.sessionID = "" then .error .missingSession
  else do
    let es ← validateEvents k p.events
    .ok { p with events := es }

/-- Event-level validity: all four per-event checks pass. -/
def eventValid (k : URLKit) (e : IngestEvent) : Bool :=
  !(e.eventType == "") && validEventTypes e.eventType && !(e.url == "") &&
    k.parseRequestURI e.url

/-- Fingerprint computed by the ingest handler for one (validated) event,
as in `Handler.ServeHTTP` (internal/ingest/handler.go). -/
def eventFingerprint (e : IngestEvent) : String :=
  ComputeFingerprint e.elementTag e.elementID e.elementClasses e.parentPath e.urlPath

/-! ### Facts about the validator -/

theorem except_bind_error {α β γ : Type} (err : α) (f : β → Except α γ) :
    (Except.error err >>= f) = (Except.error err : Except α γ) := rfl

theorem except_bind_ok {α β γ : Type} (b : β) (f : β → Except α γ) :
    (Except.ok b >>= f) = f b := rfl

theorem validateEvent_ok_iff (k : URLKit) (e : IngestEvent) :
    (∃ e', validateEvent k e = .ok e') ↔ eventValid k e := by
  unfold validateEvent eventValid
  split_ifs with h1 h2 h3 h4 <;> simp_all

theorem validateEvent_ok_eq (k : URLKit) (e e' : IngestEvent)
    (h : validateEvent k e = .ok e') : e' = normalizeEvent k e := by
  unfold validateEvent at h
  split_ifs at h
  exact (Except.ok.injEq _ _).mp h.symm

theorem validateEvents_ok_iff (k : URLKit) (l : List IngestEvent) :
    (∃ l', validateEvents k l = .ok l') ↔ ∀ e ∈ l, eventValid k e := by
  induction l with
  | nil => simp [validateEvents]
  | cons e rest ih =>
    constructor
    · rintro ⟨l', hl⟩
      unfold validateEvents at hl
      cases he : validateEvent k e with
      | error err => rw [he, except_bind_error] at hl; exact absurd hl (by simp)
      | ok e' =>
        rw [he, except_bind_ok] at hl
        cases hr : validateEvents k rest with
        | error err => rw [hr, except_bind_error] at hl; exact absurd hl (by simp)
        | ok rest' =>
          intro x hx
          rcases List.mem_cons.mp hx with rfl | hx2
          · exact (validateEvent_ok_iff k x).mp ⟨e', he⟩
          · exact (ih.mp ⟨rest', hr⟩) x hx2
    · intro hall
      obtain ⟨e', he⟩ := (validateEvent_ok_iff k e).mpr (hall e (by simp))
      obtain ⟨rest', hr⟩ := ih.mpr (fun x hx => hall x (by simp [hx]))
      exact ⟨e' :: rest', by unfold validateEvents; rw [he, except_bind_ok, hr, except_bind_ok]⟩

/-- C3: ValidatePayload rejects empty batches, batches of more than 100
events, and payloads with an empty session id, with the corresponding
error; per event it reports missing/invalid type, then missing/invalid
URL, in source order; a well-shaped payload succeeds exactly when every
event passes all checks, and any single failing event rejects the whole
batch. -/
theorem C3_validatePayload_errors (k : URLKit) (p : IngestPayload) :
    (p.events.length = 0 → ValidatePayload k p = .error .emptyBatch)
    ∧ (p.events.length > 100 → ValidatePayload k p = .error .batchTooLarge)
    ∧ (0 < p.events.length → p.events.length ≤ 100 → p.sessionID = "" →
        ValidatePayload k p = .error .missingSession)
    ∧ (∀ e : IngestEvent,
        (e.eventType = "" → validateEvent k e = .error .missingType)
        ∧ (e.eventType ≠ "" → ¬ validEventTypes e.eventType →
            validateEvent k e = .error .invalidType)
        ∧ (validEventTypes e.eventType → e.url = "" →
            validateEvent k e = .error .missingURL)
        ∧ (validEventTypes e.eventType → e.url ≠ "" → ¬ k.parseRequestURI e.url →
            validateEvent k e = .error .invalidURL))
    ∧ (0 < p.events.length → p.events.length ≤ 100 → p.sessionID ≠ "" →
        ((∃ p', ValidatePayload k p = .ok p') ↔ ∀ e ∈ p.events, eventValid k e))
    ∧ ((∃ e ∈ p.events, ¬ eventValid k e) → ∃ err, ValidatePayload k p = .error err) := by
  have hmax : maxBatchSize = 100 := rfl
  refine ⟨?_, ?_, ?_, ?_, ?_, ?_⟩
  · intro h
    unfold ValidatePayload
    rw [if_pos h]
  · intro h
    unfold ValidatePayload
    rw [if_neg (by omega), if_pos (by omega)]
  · intro h0 h1 h2
    unfold ValidatePayload
    rw [if_neg (by omega), if_neg (by omega), if_pos h2]
  · intro e
    refine ⟨?_, ?_, ?_, ?_⟩
    · intro h; unfold validateEvent; rw [if_pos h]
    · intro h1 h2; unfold validateEvent; rw [if_neg h1, if_pos h2]
    · intro h1 h2
      unfold validateEvent
      rw [if_neg (by intro hx; rw [hx] at h1; exact absurd h1 (by decide)),
        if_neg (by simp [h1]), if_pos h2]
    · intro h1 h2 h3
      unfold validateEvent
      rw [if_neg (by intro hx; rw [hx] at h1; exact absurd h1 (by decide)),
        if_neg (by simp [h1]), if_neg h2, if_pos h3]
  · intro h0 h1 h2
    unfold ValidatePayload
    rw [if_neg (by omega), if_neg (by omega), if_neg h2]
    rw [← validateEvents_ok_iff k p.events]
    constructor
    · rintro ⟨p', hp⟩
      cases hv : validateEvents k p.events with
      | error err => rw [hv, except_bind_error] at hp; exact absurd hp (by simp)
      | ok es => exact ⟨es, rfl⟩
    · rintro ⟨es, hv⟩
      exact ⟨{ p with events := es }, by rw [hv]; rfl⟩
  · rintro ⟨e, he, hbad⟩
    by_cases hlen0 : p.events.length = 0
    · exact ⟨.emptyBatch, by unfold ValidatePayload; rw [if_pos hlen0]⟩
    by_cases hlen1 : p.events.length > 100
    · exact ⟨.batchTooLarge, by unfold ValidatePayload; rw [if_neg hlen0, if_pos (by omega)]⟩
    by_cases hs : p.sessionID = ""
    · exact ⟨.missingSession, by
        unfold ValidatePayload; rw [if_neg hlen0, if_neg (by omega), if_pos hs]⟩
    · cases hres : ValidatePayload k p with
      | error err => exact ⟨err, rfl⟩
      | ok p' =>
        exfalso
        have hiff : (∃ p', ValidatePayload k p = .ok p') ↔ ∀ x ∈ p.events, eventValid k x := by
          unfold ValidatePayload
          rw [if_neg hlen0, if_neg (by omega), if_neg hs, ← validateEvents_ok_iff k p.events]
          constructor
          · rintro ⟨q, hq⟩
            cases hv : validateEvents k p.events with
            | error err => rw [hv, except_bind_error] at hq; exact absurd hq (by simp)
            | ok es => exact ⟨es, rfl⟩
          · rintro ⟨es, hv⟩
            exact ⟨{ p with events := es }, by rw [hv]; rfl⟩
        exact hbad (hiff.mp ⟨p', hres⟩ e he)

/-- C3 witness: the boundary payloads of the specification — a batch of
exactly 100 valid click events is accepted, a batch of 101 is rejected
with the batch-size error. -/
theorem C3_validatePayload_errors_witness :
    (∃ p', ValidatePayload
        ⟨fun u => u = "https://e.com/x", fun _ => some "/x"⟩
        ⟨List.replicate 100 ⟨"click", "button", "b1", "btn", "", "", "", "https://e.com/x",
          "", "", "", 0, 0, 0⟩, "s1", ""⟩ = .ok p')
    ∧ ValidatePayload ⟨fun u => u = "https://e.com/x", fun _ => some "/x"⟩
        ⟨List.replicate 101 ⟨"click", "button", "b1", "btn", "", "", "", "https://e.com/x",
          "", "", "", 0, 0, 0⟩, "s1", ""⟩ = .error .batchTooLarge := by
  constructor
  · exact ((C3_validatePayload_errors _ _).2.2.2.2.1 (by simp) (by simp) (by decide)).mpr
      (by intro e he; rw [List.eq_of_mem_replicate he]; decide)
  · exact (C3_validatePayload_errors _ _).2.1 (by simp)

theorem bytesOfChars_take_prefix (l : List Char) (n : Nat) :
    bytesOfChars (l.take n) <+: bytesOfChars l := by
  refine ⟨bytesOfChars (l.drop n), ?_⟩
  rw [← bytesOfChars_append, List.take_append_drop]

theorem normalizeEvent_fields (k : URLKit) (e : IngestEvent) :
    (normalizeEvent k e).elementText = truncate e.elementText maxTextLength
    ∧ (normalizeEvent k e).ariaLabel = truncate e.ariaLabel maxTextLength
    ∧ (normalizeEvent k e).pageTitle = truncate e.pageTitle maxTextLength
    ∧ (normalizeEvent k e).parentPath = truncate e.parentPath 1000 := by
  simp only [normalizeEvent]
  split
  · split <;> simp
  · simp

/-- C8: validateEvent trims and truncates `element_text`, `aria_label` and
`page_title` to 500 runes and `parent_path` to 1000 runes; the truncation
keeps a value whose trimmed rune count is within the bound unchanged, cuts
a longer value to exactly the bound, and the resulting UTF-8 bytes are a
prefix of the trimmed original, so no ill-formed byte sequence arises. -/
theorem C8_truncation (k : URLKit) (e e' : IngestEvent)
    (h : validateEvent k e = .ok e') :
    (e'.elementText = truncate e.elementText 500
     ∧ e'.ariaLabel = truncate e.ariaLabel 500
     ∧ e'.pageTitle = truncate e.pageTitle 500
     ∧ e'.parentPath = truncate e.parentPath 1000)
    ∧ (∀ (s : String) (n : Nat),
        (truncate s n).data.length ≤ n
        ∧ ((trimChars s.data).length ≤ n → (truncate s n).data = trimChars s.data)
        ∧ (n < (trimChars s.data).length → (truncate s n).data.length = n)
        ∧ bytesOfChars (truncate s n).data <+: bytesOfChars (trimChars s.data)) := by
  constructor
  · rw [validateEvent_ok_eq k e e' h]
    exact normalizeEvent_fields k e
  · intro s n
    refine ⟨?_, ?_, ?_, ?_⟩
    · unfold truncate
      split
      · simpa
      · simp [List.length_take]
    · intro hle; unfold truncate; rw [if_pos hle]
    · intro hgt
      unfold truncate
      rw [if_neg (by omega)]
      simp [List.length_take]
      omega
    · unfold truncate
      split
      · exact ⟨[], by simp⟩
      · exact bytesOfChars_take_prefix _ _

theorem dropWhile_eq_self_of {p : Char → Bool} {l : List Char}
    (h : ∀ c ∈ l, p c = false) : l.dropWhile p = l := by
  cases l with
  | nil => rfl
  | cons a as => rw [List.dropWhile_cons, h a (by simp)]; simp

theorem trimChars_noSpace {l : List Char} (h : ∀ c ∈ l, goIsSpace c = false) :
    trimChars l = l := by
  unfold trimChars
  rw [dropWhile_eq_self_of h, dropWhile_eq_self_of (fun c hc => h c (by simpa using hc)),
    List.reverse_reverse]

/-- C8 witness: a 501-rune element text is cut to 500 runes and a 500-rune
text is kept unchanged, at the concrete boundary of the specification. -/
theorem C8_truncation_witness :
    (truncate (String.mk (List.replicate 501 'a')) 500).data.length = 500
    ∧ (truncate (String.mk (List.replicate 500 'a')) 500).data
        = trimChars (String.mk (List.replicate 500 'a')).data := by
  have h := C8_truncation ⟨fun _ => true, fun _ => none⟩
    ⟨"click", "", "", "", "", "", "", "u", "", "", "", 0, 0, 0⟩
    (normalizeEvent ⟨fun _ => true, fun _ => none⟩
      ⟨"click", "", "", "", "", "", "", "u", "", "", "", 0, 0, 0⟩)
    rfl
  have t501 : trimChars (String.mk (List.replicate 501 'a')).data
      = List.replicate 501 'a' :=
    trimChars_noSpace (fun c hc => by rw [List.eq_of_mem_replicate hc]; decide)
  have t500 : trimChars (String.mk (List.replicate 500 'a')).data
      = List.replicate 500 'a' :=
    trimChars_noSpace (fun c hc => by rw [List.eq_of_mem_replicate hc]; decide)
  refine ⟨(h.2 (String.mk (List.replicate 501 'a')) 500).2.2.1 ?_,
          (h.2 (String.mk (List.replicate 500 'a')) 500).2.1 ?_⟩
  · rw [t501, List.length_replicate]; omega
  · rw [t500, List.length_replicate]

/-- C10: validation rewrites an empty `url_path` to the path parsed from
the event URL before the handler computes the fingerprint, so ingesting an
event with `url_path` left empty and ingesting it with `url_path` set to
the parsed path produce the same validation outcome and, in particular,
identical stored fingerprints. -/
theorem C10_urlPath_derivation (k : URLKit) (e : IngestEvent) (P : String)
    (hP : k.parsePath e.url = some P) :
    validateEvent k { e with urlPath := "" } = validateEvent k { e with urlPath := P }
    ∧ (validateEvent k { e with urlPath := "" }).map eventFingerprint
        = (validateEvent k { e with urlPath := P }).map eventFingerprint := by
  have hnorm : normalizeEvent k { e with urlPath := "" }
      = normalizeEvent k { e with urlPath := P } := by
    by_cases hP0 : P = "" <;> simp_all [normalizeEvent]
  have hmain : validateEvent k { e with urlPath := "" }
      = validateEvent k { e with urlPath := P } := by
    unfold validateEvent
    dsimp only
    rw [hnorm]
  exact ⟨hmain, by rw [hmain]⟩

/-- C10 witness: a concrete click event on `https://e.com/x` whose parsed
path is `/x`, validated with the empty and with the explicit `url_path`. -/
theorem C10_urlPath_derivation_witness :
    validateEvent ⟨fun u => u = "https://e.com/x", fun u => if u = "https://e.com/x"
        then some "/x" else none⟩
      ⟨"click", "button", "b1", "btn", "", "", "", "https://e.com/x", "", "", "", 0, 0, 0⟩
    = validateEvent ⟨fun u => u = "https://e.com/x", fun u => if u = "https://e.com/x"
        then some "/x" else none⟩
      ⟨"click", "button", "b1", "btn", "", "", "", "https://e.com/x", "/x", "", "", 0, 0, 0⟩ :=
  (C10_urlPath_derivation _
    ⟨"click", "button", "b1", "btn", "", "", "", "https://e.com/x", "", "", "", 0, 0, 0⟩
    "/x" (by decide)).1

/-! ### Event-name cache (src/unnamed/part_006, internal/storage sqlite.go;
internal/ai/cache.go)

The `event_names` table is modelled as a list of rows; `getEventName` is
the keyed SELECT, `SetEventName` the AI write-through UPSERT (which on
conflict updates only `ai_name`, `source_file` and `confidence`), and
`OverrideEventName` the user-name UPDATE. The `confidence` REAL column is
modelled with `Int` since no claim concerns its numeric contents. -/

/-- Row of the `event_names` table. -/
structure EventName where
  fingerprint : String
  projectID : String
  aiName : String
  userName : Option String
  sourceFile : Option String
  confidence : Option Int
  deriving DecidableEq

/-- Key predicate of the `(project_id, fingerprint)` primary key. -/
def enKey (pid fp : String) (r : EventName) : Bool :=
  r.projectID == pid && r.fingerprint == fp

/-- GetEventName: the keyed SELECT on `event_names`. -/
def getEventName (tbl : List EventName) (pid fp : String) : Option EventName :=
  tbl.find? (enKey pid fp)

/-- Update applied by the UPSERT's ON CONFLICT branch: only `ai_name`,
`source_file` and `confidence` are overwritten. -/
def applyAIUpdate (en : EventName) (r : EventName) : EventName :=
  { r with aiName := en.aiName, sourceFile := en.sourceFile, confidence := en.confidence }

/-- SetEventName: INSERT of (fingerprint, project_id, ai_name, source_file,
confidence) with ON CONFLICT DO UPDATE of the same three value columns;
`user_name` is never written. -/
def SetEventName (tbl : List EventName) (en : EventName) : List EventName :=
  if (getEventName tbl en.projectID en.fingerprint).isSome then
    tbl.map (fun r => if enKey en.projectID en.fingerprint r then applyAIUpdate en r else r)
  else
    tbl ++ [{ en with userName := none }]

/-- OverrideEventName: UPDATE of `user_name` on the keyed row (a no-op when
the row is absent, as the SQL UPDATE matches no rows). -/
def OverrideEventName (tbl : List EventName) (pid fp userName : String) : List EventName :=
  tbl.map (fun r => if enKey pid fp r then { r with userName := some userName } else r)

/-- Cache.Get from internal/ai/cache.go: the display name is the user
override when present and non-empty, else the AI name; `none` when the row
is missing. -/
def cacheGet (tbl : List EventName) (pid fp : String) : Option String :=
  match getEventName tbl pid fp with
  | none => none
  | some en =>
    match en.userName with
    | some u => if u ≠ "" then some u else some en.aiName
    | none => some en.aiName

theorem find?_map_update {α : Type} (p : α → Bool) (u : α → α) (l : List α)
    (hu : ∀ r, p (u r) = p r) :
    (l.map (fun r => if p r then u r else r)).find? p = (l.find? p).map u := by
  induction l with
  | nil => rfl
  | cons a l ih =>
    by_cases ha : p a
    · simp [List.find?_cons, ha, hu a]
    · have ha2 : p a = false := by simpa using ha
      simp [List.find?_cons, ha2, ih]

/-- C6: the cached display name is `user_name` whenever that is non-empty
and `ai_name` otherwise; an AI write-through SetEventName on the same key
overwrites only `ai_name`, `source_file` and `confidence`, so a user name
set by OverrideEventName survives every later SetEventName and keeps
winning the display-name choice. -/
theorem C6_userName_wins (tbl : List EventName) (pid fp : String) :
    (∀ en, getEventName tbl pid fp = some en →
      (∀ u, en.userName = some u → u ≠ "" → cacheGet tbl pid fp = some u)
      ∧ ((en.userName = none ∨ en.userName = some "") →
          cacheGet tbl pid fp = some en.aiName))
    ∧ (∀ en r, en.projectID = pid → en.fingerprint = fp →
        getEventName tbl pid fp = some r →
        getEventName (SetEventName tbl en) pid fp = some (applyAIUpdate en r))
    ∧ (∀ u en, u ≠ "" → en.projectID = pid → en.fingerprint = fp →
        (getEventName tbl pid fp).isSome →
        cacheGet (SetEventName (OverrideEventName tbl pid fp u) en) pid fp = some u) := by
  have hkeyAI : ∀ en r, enKey pid fp (applyAIUpdate en r) = enKey pid fp r := by
    intro en r; rfl
  have hkeyUser : ∀ (u : String) r,
      enKey pid fp ({ r with userName := some u }) = enKey pid fp r := by
    intro u r; rfl
  have hset : ∀ (tbl2 : List EventName) en r, en.projectID = pid → en.fingerprint = fp →
      getEventName tbl2 pid fp = some r →
      getEventName (SetEventName tbl2 en) pid fp = some (applyAIUpdate en r) := by
    intro tbl2 en r hpid hfp hr
    unfold SetEventName
    rw [hpid, hfp]
    rw [if_pos (by rw [hr]; rfl)]
    unfold getEventName at hr ⊢
    rw [find?_map_update (enKey pid fp) (applyAIUpdate en) tbl2 (hkeyAI en), hr]
    rfl
  refine ⟨?_, fun en r => hset tbl en r, ?_⟩
  · intro en hen
    constructor
    · intro u hu hne
      unfold cacheGet
      rw [hen]
      dsimp only
      rw [hu]
      simp [hne]
    · intro h
      unfold cacheGet
      rw [hen]
      dsimp only
      rcases h with h | h <;> rw [h] <;> simp
  · intro u en hu hpid hfp hsome
    obtain ⟨r, hr⟩ := Option.isSome_iff_exists.mp hsome
    have hov : getEventName (OverrideEventName tbl pid fp u) pid fp
        = some { r with userName := some u } := by
      unfold OverrideEventName getEventName
      unfold getEventName at hr
      rw [find?_map_update (enKey pid fp) (fun r2 => { r2 with userName := some u }) tbl
        (hkeyUser u), hr]
      rfl
    have := hset (OverrideEventName tbl pid fp u) en { r with userName := some u }
      hpid hfp hov
    unfold cacheGet
    rw [this]
    simp [applyAIUpdate, hu]

/-- C6 witness: a concrete row whose AI name is later overridden by the
user and then rewritten by the AI path; the user name keeps winning. -/
theorem C6_userName_wins_witness :
    cacheGet (SetEventName (OverrideEventName
        [⟨"fp1", "p1", "Old AI Name", none, none, none⟩] "p1" "fp1" "Place Order")
        ⟨"fp1", "p1", "New AI Name", none, some "f.tsx", some 1⟩) "p1" "fp1"
      = some "Place Order" :=
  (C6_userName_wins [⟨"fp1", "p1", "Old AI Name", none, none, none⟩] "p1" "fp1").2.2
    "Place Order" ⟨"fp1", "p1", "New AI Name", none, some "f.tsx", some 1⟩
    (by decide) rfl rfl (by decide)

/-! ### Naming engine (internal/ai/namer.go)

The LLM provider is abstracted as a function from naming requests to an
optional result (`none` models a provider/network error); the bounded job
channel becomes an explicit job list with the capacity-1000 nonblocking
send; the read-through cache is the `event_names` table model above. -/

/-- Request payload sent to the provider. -/
structure NamingRequest where
  elementTag : String
  elementID : String
  elementClasses : String
  elementText : String
  ariaLabel : String
  parentPath : String
  url : String
  urlPath : String
  pageTitle : String
  sourceCode : String
  sourceFile : String
  deriving DecidableEq

/-- Result of a provider call (`Confidence` is a float in Go; modelled with
`Int` since no claim concerns its numeric contents). -/
structure NamingResult where
  name : String
  confidence : Int
  sourceFile : String
  deriving DecidableEq

/-- Pending naming task. -/
structure NamingJob where
  projectID : String
  fingerprint : String
  request : NamingRequest
  deriving DecidableEq

/-- State of the naming orchestrator: provider and matcher handles, the
cache table, and the contents of the bounded job channel. -/
structure Namer where
  provider : Option (NamingRequest → Option NamingResult)
  matcher : Option (String → String → String → String → Option (String × String))
  cache : List EventName
  jobs : List NamingJob

/-- Capacity of the job channel. -/
def jobQueueCapacity : Nat := 1000

/-- Cache.Set from internal/ai/cache.go: write-through of an AI result. -/
def cacheSet (tbl : List EventName) (pid fp : String) (result : NamingResult) :
    List EventName :=
  SetEventName tbl ⟨fp, pid, result.name, none, some result.sourceFile,
    some result.confidence⟩

/-- Namer.Submit: drop when no provider is set, drop when the cache already
has the key, otherwise a nonblocking send that drops when the channel is
full. -/
def namerSubmit (n : Namer) (job : NamingJob) : Namer :=
  if n.provider.isNone then n
  else if (cacheGet n.cache job.projectID job.fingerprint).isSome then n
  else if n.jobs.length < jobQueueCapacity then { n with jobs := n.jobs ++ [job] }
  else n

/-- One worker-loop iteration on a dequeued job: recheck the cache, snapshot
provider and matcher, enrich the request through the matcher, call the
provider, and on success write through the cache (the event-store backfill
UPDATE is outside this model). The boolean records whether a
GenerateEventName call was made. -/
def workerStep (n : Namer) (job : NamingJob) : Bool × List EventName :=
  if (cacheGet n.cache job.projectID job.fingerprint).isSome then (false, n.cache)
  else
    match n.provider with
    | none => (false, n.cache)
    | some provider =>
      let req :=
        match n.matcher with
        | some m =>
          match m job.projectID job.request.elementID job.request.elementClasses
              job.request.parentPath with
          | some (code, file) => { job.request with sourceCode := code, sourceFile := file }
          | none => job.request
        | none => job.request
      match provider req with
      | none => (true, n.cache)
      | some result => (true, cacheSet n.cache job.projectID job.fingerprint result)

/-- C5: a naming job whose key is cached at submit time is dropped by
Namer.Submit — the state, in particular the job queue, is unchanged — and
even a dequeued job with a cached key is skipped by the worker without a
provider GenerateEventName call, so no provider call is ever made for such
a job. -/
theorem C5_cached_job_no_call (n : Namer) (job : NamingJob)
    (h : (cacheGet n.cache job.projectID job.fingerprint).isSome) :
    namerSubmit n job = n
    ∧ (namerSubmit n job).jobs = n.jobs
    ∧ (workerStep n job).1 = false
    ∧ (workerStep n job).2 = n.cache := by
  have hsub : namerSubmit n job = n := by
    unfold namerSubmit
    split_ifs <;> simp_all
  have hw : workerStep n job = (false, n.cache) := by
    unfold workerStep
    rw [if_pos h]
  exact ⟨hsub, by rw [hsub], by rw [hw], by rw [hw]⟩

/-- C5 witness: a job for a fingerprint that is already cached, against a
namer whose provider is set. -/
theorem C5_cached_job_no_call_witness :
    namerSubmit
      ⟨some (fun _ => none), none, [⟨"fp1", "p1", "Place Order", none, none, none⟩], []⟩
      ⟨"p1", "fp1", ⟨"button", "b1", "btn", "", "", "", "u", "/", "", "", ""⟩⟩
    = ⟨some (fun _ => none), none, [⟨"fp1", "p1", "Place Order", none, none, none⟩], []⟩
    ∧ (workerStep
        ⟨some (fun _ => none), none, [⟨"fp1", "p1", "Place Order", none, none, none⟩], []⟩
        ⟨"p1", "fp1", ⟨"button", "b1", "btn", "", "", "", "u", "/", "", "", ""⟩⟩).1
      = false := by
  have h := C5_cached_job_no_call
    ⟨some (fun _ => none), none, [⟨"fp1", "p1", "Place Order", none, none, none⟩], []⟩
    ⟨"p1", "fp1", ⟨"button", "b1", "btn", "", "", "", "u", "/", "", "", ""⟩⟩
    (by decide)
  exact ⟨h.1, h.2.2.1⟩

/-! ### Alert checker (src/unnamed/part_000, Server.checkAlerts)

Timestamps are minutes as integers (Go works in `time.Time` /
`time.Duration`; only differences and comparisons matter here). The event
count is an explicit parameter modelling `DuckDB.CountEvents`, and the
webhook delivery outcome is an explicit parameter whose value the checker
never consults — firing updates `last_triggered_at` regardless. -/

/-- Alert row (timestamps in minutes). -/
structure Alert where
  id : String
  projectID : String
  name : String
  metric : String
  eventName : String
  threshold : Int
  windowMinutes : Int
  webhookURL : String
  enabled : Bool
  lastTriggeredAt : Option Int
  deriving DecidableEq

/-- Metric switch of checkAlerts: metric tag to (event_type, event_name)
count filter. -/
def alertFilter (a : Alert) : String × String :=
  if a.metric = "error_count" then ("error", "")
  else if a.metric = "pageview_count" then ("pageview", "")
  else if a.metric = "event_count" then ("", a.eventName)
  else ("", "")

/-- Processing of one alert inside the checkAlerts loop. The first
component records whether the alert fired (webhook POST attempted). -/
def checkAlert (count : String → String → String → Int → Int)
    (webhookOK : Alert → Bool) (now : Int) (a : Alert) : Bool × Alert :=
  if count a.projectID (alertFilter a).1 (alertFilter a).2 (now - a.windowMinutes)
      ≤ a.threshold then (false, a)
  else
    match a.lastTriggeredAt with
    | some t =>
      if now - t < a.windowMinutes then (false, a)
      else
        let _delivered := webhookOK a
        (true, { a with lastTriggeredAt := some now })
    | none =>
      let _delivered := webhookOK a
      (true, { a with lastTriggeredAt := some now })

/-- One run of Server.checkAlerts: list the enabled alerts, process each. -/
def checkAlerts (count : String → String → String → Int → Int)
    (webhookOK : Alert → Bool) (now : Int) (alerts : List Alert) : List (Bool × Alert) :=
  (alerts.filter (fun a => a.enabled)).map (checkAlert count webhookOK now)

/-- C4: an alert fires only when its event count over the window strictly
exceeds the threshold and the cooldown has passed (no previous trigger, or
at least window_minutes since it); a fired alert has `last_triggered_at`
set to now — for every webhook outcome — so consecutive trigger times are
at least window_minutes apart; a non-fired alert is untouched; and only
enabled alerts are processed at all, so a disabled alert never fires. -/
theorem C4_alert_cooldown (count : String → String → String → Int → Int)
    (webhookOK : Alert → Bool) (now : Int) (alerts : List Alert) :
    (∀ a : Alert,
      ((checkAlert count webhookOK now a).1 = true →
        count a.projectID (alertFilter a).1 (alertFilter a).2 (now - a.windowMinutes)
            > a.threshold
        ∧ (∀ t, a.lastTriggeredAt = some t → now - t ≥ a.windowMinutes)
        ∧ (checkAlert count webhookOK now a).2.lastTriggeredAt = some now)
      ∧ ((checkAlert count webhookOK now a).1 = false →
          (checkAlert count webhookOK now a).2 = a)
      ∧ (∀ webhookKO : Alert → Bool,
          checkAlert count webhookOK now a = checkAlert count webhookKO now a))
    ∧ (∀ r ∈ checkAlerts count webhookOK now alerts,
        ∃ a ∈ alerts, a.enabled ∧ r = checkAlert count webhookOK now a) := by
  constructor
  · intro a
    refine ⟨?_, ?_, ?_⟩
    · intro hfired
      unfold checkAlert at hfired ⊢
      by_cases hc : count a.projectID (alertFilter a).1 (alertFilter a).2
          (now - a.windowMinutes) ≤ a.threshold
      · rw [if_pos hc] at hfired
        exact absurd hfired (by simp)
      · rw [if_neg hc] at hfired ⊢
        refine ⟨by omega, ?_, ?_⟩
        · intro t ht
          rw [ht] at hfired
          dsimp only at hfired
          by_cases hcool : now - t < a.windowMinutes
          · rw [if_pos hcool] at hfired
            exact absurd hfired (by simp)
          · omega
        · cases hlt : a.lastTriggeredAt with
          | none => rfl
          | some t =>
            rw [hlt] at hfired
            dsimp only at hfired ⊢
            by_cases hcool : now - t < a.windowMinutes
            · rw [if_pos hcool] at hfired
              exact absurd hfired (by simp)
            · rw [if_neg hcool]
    · intro hquiet
      unfold checkAlert at hquiet ⊢
      by_cases hc : count a.projectID (alertFilter a).1 (alertFilter a).2
          (now - a.windowMinutes) ≤ a.threshold
      · rw [if_pos hc]
      · rw [if_neg hc] at hquiet ⊢
        cases hlt : a.lastTriggeredAt with
        | none =>
          rw [hlt] at hquiet
          dsimp only at hquiet
          exact absurd hquiet (by simp)
        | some t =>
          rw [hlt] at hquiet
          dsimp only at hquiet ⊢
          by_cases hcool : now - t < a.windowMinutes
          · rw [if_pos hcool]
          · rw [if_neg hcool] at hquiet
            exact absurd hquiet (by simp)
    · intro webhookKO
      unfold checkAlert
      rfl
  · intro r hr
    unfold checkAlerts at hr
    obtain ⟨a, ha, rfl⟩ := List.mem_map.mp hr
    exact ⟨a, List.mem_of_mem_filter ha, by simpa using List.of_mem_filter ha, rfl⟩

/-- C4 witness: Scenario E of the specification — threshold 5, window 60
minutes, count 7: the alert fires at t₀ = 1000 with no previous trigger and
`last_triggered_at` becomes 1000; fired thirty minutes earlier, it stays
quiet. -/
theorem C4_alert_cooldown_witness :
    ((checkAlert (fun _ _ _ _ => 7) (fun _ => false) 1000
        ⟨"a1", "p1", "err spike", "error_count", "", 5, 60, "https://hook", true, none⟩).1 = true
      → (7 : Int) > 5
        ∧ (checkAlert (fun _ _ _ _ => 7) (fun _ => false) 1000
            ⟨"a1", "p1", "err spike", "error_count", "", 5, 60, "https://hook", true,
              none⟩).2.lastTriggeredAt = some 1000)
    ∧ (checkAlert (fun _ _ _ _ => 20) (fun _ => false) 1030
        ⟨"a1", "p1", "err spike", "error_count", "", 5, 60, "https://hook", true,
          some 1000⟩).1 = false := by
  constructor
  · intro hfired
    have h := ((C4_alert_cooldown (fun _ _ _ _ => 7) (fun _ => false) 1000 []).1
      ⟨"a1", "p1", "err spike", "error_count", "", 5, 60, "https://hook", true, none⟩).1
      hfired
    exact ⟨h.1, h.2.2⟩
  · decide

/-! ### Encryptor (internal/storage/encrypt.go)

Base64 (Go `encoding/base64` StdEncoding, with `=` padding) is implemented
concretely over byte lists. AES-256-GCM is abstracted as an AEAD record
whose fields state exactly what `crypto/cipher` documents: opening a
sealed value with its nonce recovers the plaintext, and sealed output is
made of bytes. Go strings are byte lists here; the envelope prefix
`"enc:v1:"` is its UTF-8 bytes. -/

/-- Base64 alphabet character (as a byte) for a sextet value. -/
def b64Char (n : Nat) : Nat :=
  if n < 26 then 65 + n
  else if n < 52 then 97 + (n - 26)
  else if n < 62 then 48 + (n - 52)
  else if n = 62 then 43
  else 47

/-- Inverse of the base64 alphabet; `none` for a byte outside it. -/
def b64DecodeChar (c : Nat) : Option Nat :=
  if 65 ≤ c ∧ c ≤ 90 then some (c - 65)
  else if 97 ≤ c ∧ c ≤ 122 then some (c - 97 + 26)
  else if 48 ≤ c ∧ c ≤ 57 then some (c - 48 + 52)
  else if c = 43 then some 62
  else if c = 47 then some 63
  else none

/-- Base64 StdEncoding of a byte list: 3-byte groups become 4 characters,
a 2-byte tail becomes 3 characters and `=`, a 1-byte tail 2 characters and
`==` (61 is the byte of `=`). -/
def b64Encode : List Nat → List Nat
  | b0 :: b1 :: b2 :: rest =>
    b64Char ((b0 * 65536 + b1 * 256 + b2) / 262144 % 64) ::
    b64Char ((b0 * 65536 + b1 * 256 + b2) / 4096 % 64) ::
    b64Char ((b0 * 65536 + b1 * 256 + b2) / 64 % 64) ::
    b64Char ((b0 * 65536 + b1 * 256 + b2) % 64) :: b64Encode rest
  | [b0, b1] =>
    [b64Char ((b0 * 65536 + b1 * 256) / 262144 % 64),
     b64Char ((b0 * 65536 + b1 * 256) / 4096 % 64),
     b64Char ((b0 * 65536 + b1 * 256) / 64 % 64), 61]
  | [b0] =>
    [b64Char (b0 * 65536 / 262144 % 64), b64Char (b0 * 65536 / 4096 % 64), 61, 61]
  | [] => []

/-- Base64 StdEncoding decoding: 4-character groups, with `=` padding only
at the end; `none` on malformed input. -/
def b64Decode : List Nat → Option (List Nat)
  | [] => some []
  | c0 :: c1 :: c2 :: c3 :: rest =>
    (b64DecodeChar c0).bind fun s0 =>
    (b64DecodeChar c1).bind fun s1 =>
    if c2 = 61 then
      if c3 = 61 && rest.isEmpty then some [s0 * 4 + s1 / 16] else none
    else
      (b64DecodeChar c2).bind fun s2 =>
      if c3 = 61 then
        if rest.isEmpty then some [s0 * 4 + s1 / 16, s1 % 16 * 16 + s2 / 4] else none
      else
        (b64DecodeChar c3).bind fun s3 =>
        (b64Decode rest).map fun bs =>
          (s0 * 4 + s1 / 16) :: (s1 % 16 * 16 + s2 / 4) :: (s2 % 4 * 64 + s3) :: bs
  | _ => none

theorem b64DecodeChar_b64Char : ∀ s < 64, b64DecodeChar (b64Char s) = some s := by decide

theorem b64Char_ne_pad : ∀ s < 64, b64Char s ≠ 61 := by decide

theorem b64_roundtrip_bounded :
    ∀ (n : Nat) (bs : List Nat), bs.length ≤ n → (∀ b ∈ bs, b < 256) →
      b64Decode (b64Encode bs) = some bs := by
  intro n
  induction n with
  | zero =>
    intro bs hlen _
    have hbs : bs = [] := List.length_eq_zero.mp (by omega)
    subst hbs
    rfl
  | succ n ih =>
    intro bs hlen h
    match bs with
    | [] => rfl
    | [b0] =>
      have hb0 : b0 < 256 := h b0 (by simp)
      simp only [b64Encode, b64Decode]
      rw [b64DecodeChar_b64Char _ (Nat.mod_lt _ (by omega)),
        b64DecodeChar_b64Char _ (Nat.mod_lt _ (by omega))]
      simp
      omega
    | [b0, b1] =>
      have hb0 : b0 < 256 := h b0 (by simp)
      have hb1 : b1 < 256 := h b1 (by simp)
      simp only [b64Encode, b64Decode]
      rw [b64DecodeChar_b64Char _ (Nat.mod_lt _ (by omega)),
        b64DecodeChar_b64Char _ (Nat.mod_lt _ (by omega))]
      simp only [Option.some_bind]
      rw [if_neg (b64Char_ne_pad _ (Nat.mod_lt _ (by omega))),
        b64DecodeChar_b64Char _ (Nat.mod_lt _ (by omega))]
      simp
      omega
    | b0 :: b1 :: b2 :: rest =>
      have hb0 : b0 < 256 := h b0 (by simp)
      have hb1 : b1 < 256 := h b1 (by simp)
      have hb2 : b2 < 256 := h b2 (by simp)
      have hrest := ih rest (by simp at hlen; omega)
        (fun b hb => h b (by simp [hb]))
      simp only [b64Encode, b64Decode]
      rw [b64DecodeChar_b64Char _ (Nat.mod_lt _ (by omega)),
        b64DecodeChar_b64Char _ (Nat.mod_lt _ (by omega))]
      simp only [Option.some_bind]
      rw [if_neg (b64Char_ne_pad _ (Nat.mod_lt _ (by omega))),
        b64DecodeChar_b64Char _ (Nat.mod_lt _ (by omega))]
      simp only [Option.some_bind]
      rw [if_neg (b64Char_ne_pad _ (Nat.mod_lt _ (by omega))),
        b64DecodeChar_b64Char _ (Nat.mod_lt _ (by omega))]
      simp only [Option.some_bind]
      rw [hrest]
      simp
      refine ⟨by omega, by omega, by omega⟩

/-- AEAD abstraction of `cipher.AEAD` for AES-256-GCM: `seal nonce pt` is
the ciphertext-plus-tag appended by `Seal`, `aeadOpen` is `Open`; the two
proof fields record the documented stdlib behavior (authenticated
decryption inverts encryption under the same nonce, and output is bytes). -/
structure AEAD where
  nonceSize : Nat
  gcmSeal : List Nat → List Nat → List Nat
  gcmOpen : List Nat → List Nat → Option (List Nat)
  open_seal : ∀ nonce pt, gcmOpen nonce (gcmSeal nonce pt) = some pt
  seal_bytes : ∀ nonce pt, (∀ b ∈ pt, b < 256) → ∀ b ∈ gcmSeal nonce pt, b < 256

/-- Encryptor (non-nil receiver) holding the GCM AEAD. -/
structure Encryptor where
  aead : AEAD

/-- Bytes of the `"enc:v1:"` envelope prefix. -/
def encPrefix : List Nat := [101, 110, 99, 58, 118, 49, 58]

/-- Encrypt: random nonce (passed explicitly here), `Seal` appending to the
nonce, base64, and the version prefix. -/
def Encrypt (e : Encryptor) (nonce plaintext : List Nat) : List Nat :=
  encPrefix ++ b64Encode (nonce ++ e.aead.gcmSeal nonce plaintext)

/-- Decrypt: values without the prefix pass through unchanged (legacy
plaintext); otherwise base64-decode, split off the nonce, and `Open`. -/
def Decrypt (e : Encryptor) (value : List Nat) : Except String (List Nat) :=
  if ¬ encPrefix.isPrefixOf value then .ok value
  else
    match b64Decode (value.drop encPrefix.length) with
    | none => .error "decoding ciphertext"
    | some data =>
      if data.length < e.aead.nonceSize then .error "ciphertext too short"
      else
        match e.aead.gcmOpen (data.take e.aead.nonceSize) (data.drop e.aead.nonceSize) with
        | none => .error "decrypting"
        | some pt => .ok pt

/-- C7: Decrypt inverts Encrypt for a (non-nil) Encryptor whenever the
nonce has the AEAD's nonce size, and every value that does not carry the
`enc:v1:` prefix passes through Decrypt unchanged. -/
theorem C7_encrypt_roundtrip (e : Encryptor) (nonce pt : List Nat)
    (hn : nonce.length = e.aead.nonceSize)
    (hnb : ∀ b ∈ nonce, b < 256) (hpb : ∀ b ∈ pt, b < 256) :
    Decrypt e (Encrypt e nonce pt) = .ok pt
    ∧ ∀ v : List Nat, ¬ encPrefix.isPrefixOf v → Decrypt e v = .ok v := by
  constructor
  · unfold Encrypt Decrypt
    have hpre : encPrefix.isPrefixOf
        (encPrefix ++ b64Encode (nonce ++ e.aead.gcmSeal nonce pt)) := by
      rw [List.isPrefixOf_iff_prefix]
      exact List.prefix_append _ _
    have hbytes : ∀ b ∈ nonce ++ e.aead.gcmSeal nonce pt, b < 256 := by
      intro b hb
      rcases List.mem_append.mp hb with hb | hb
      · exact hnb b hb
      · exact e.aead.seal_bytes nonce pt hpb b hb
    rw [if_neg (by simpa using hpre), List.drop_left,
      b64_roundtrip_bounded (nonce ++ e.aead.gcmSeal nonce pt).length _ le_rfl hbytes]
    dsimp only
    rw [if_neg (by rw [List.length_append, hn]; omega)]
    rw [← hn, List.take_left, List.drop_left, e.aead.open_seal]
  · intro v hv
    unfold Decrypt
    rw [if_pos hv]

/-- C7 witness: a concrete AEAD instance (identity seal) with a 12-byte
nonce and a small plaintext round-trips, and a plaintext value without the
prefix passes through. -/
theorem C7_encrypt_roundtrip_witness :
    Decrypt ⟨⟨12, fun _ p => p, fun _ c => some c, fun _ _ => rfl,
        fun _ _ hp b hb => hp b hb⟩⟩
      (Encrypt ⟨⟨12, fun _ p => p, fun _ c => some c, fun _ _ => rfl,
        fun _ _ hp b hb => hp b hb⟩⟩ (List.replicate 12 0) [115, 107, 45, 49])
      = .ok [115, 107, 45, 49]
    ∧ Decrypt ⟨⟨12, fun _ p => p, fun _ c => some c, fun _ _ => rfl,
        fun _ _ hp b hb => hp b hb⟩⟩ [112, 108, 97, 105, 110] = .ok [112, 108, 97, 105, 110] := by
  have h := C7_encrypt_roundtrip ⟨⟨12, fun _ p => p, fun _ c => some c, fun _ _ => rfl,
      fun _ _ hp b hb => hp b hb⟩⟩ (List.replicate 12 0) [115, 107, 45, 49]
    (by simp) (by decide) (by decide)
  exact ⟨h.1, h.2 [112, 108, 97, 105, 110] (by decide)⟩

/-! ### Funnel query (internal/storage/duckdb.go, DuckDB.QueryFunnel)

The generated SQL is embedded by its relational meaning over an event-row
list. `step1` selects the sessions with a matching event and their minimal
timestamp; `step k` (k ≥ 2) joins matching events against step k−1 on the
session id, keeps only events strictly later than the recorded timestamp
(`e.timestamp > s.ts`), and groups per session with the minimal timestamp.
Timestamps are integers; `none` bounds model `time.Time.IsZero` (the Go
code omits the range predicate then). -/

/-- Row of the columnar `events` table (the columns the funnel and
breakdown queries touch); `event_name` is a nullable column. -/
structure Row where
  projectID : String
  sessionID : String
  distinctID : String
  eventType : String
  eventName : Option String
  urlPath : String
  timestamp : Int
  deriving DecidableEq

/-- Funnel step filter. -/
structure FunnelStep where
  eventType : String
  eventName : String
  deriving DecidableEq

/-- Time-range predicate (bounds omitted when the Go time is zero). -/
def inRange (tstart tstop : Option Int) (ts : Int) : Bool :=
  (match tstart with | some s => decide (s ≤ ts) | none => true) &&
  (match tstop with | some e => decide (ts ≤ e) | none => true)

/-- WHERE clause of a step CTE: project, event type, optional event name
(SQL `NULL = x` never matches), and time range. -/
def matchesStep (pid : String) (f : FunnelStep) (tstart tstop : Option Int) (r : Row) :
    Bool :=
  r.projectID == pid && r.eventType == f.eventType &&
  (f.eventName == "" ||
    (match r.eventName with | some n => n == f.eventName | none => false)) &&
  inRange tstart tstop r.timestamp

/-- Accumulation step of `GROUP BY session_id` with `MIN(timestamp)`. -/
def insertMin : List (String × Int) → String × Int → List (String × Int)
  | [], p => [p]
  | (s, t) :: rest, p =>
    if s == p.1 then (s, min t p.2) :: rest else (s, t) :: insertMin rest p

/-- Grouping of (session, timestamp) rows per session with the minimal
timestamp. -/
def groupMin (rows : List (String × Int)) : List (String × Int) :=
  rows.foldl insertMin []

/-- Lookup of a session's recorded timestamp in a grouped step set. -/
def lookupTs (prev : List (String × Int)) (sid : String) : Option Int :=
  (prev.find? (fun p => p.1 == sid)).map (fun p => p.2)

/-- The `step1` CTE. -/
def funnelStep1 (rows : List Row) (pid : String) (f : FunnelStep)
    (tstart tstop : Option Int) : List (String × Int) :=
  groupMin ((rows.filter (matchesStep pid f tstart tstop)).map
    (fun r => (r.sessionID, r.timestamp)))

/-- The `step k` CTE for k ≥ 2: join with the previous step on the session
id, require strictly greater timestamps, group per session with MIN. -/
def funnelNextStep (rows : List Row) (pid : String) (f : FunnelStep)
    (tstart tstop : Option Int) (prev : List (String × Int)) : List (String × Int) :=
  groupMin (rows.filterMap (fun r =>
    if matchesStep pid f tstart tstop r then
      match lookupTs prev r.sessionID with
      | some ts0 => if ts0 < r.timestamp then some (r.sessionID, r.timestamp) else none
      | none => none
    else none))

/-- Step sets after the first, chained left to right. -/
def funnelStepsAux (rows : List Row) (pid : String) (tstart tstop : Option Int) :
    List (String × Int) → List FunnelStep → List (List (String × Int))
  | _, [] => []
  | prev, f :: fs =>
    funnelNextStep rows pid f tstart tstop prev ::
      funnelStepsAux rows pid tstart tstop (funnelNextStep rows pid f tstart tstop prev) fs

/-- All step session sets of the funnel, in step order. -/
def funnelSteps (rows : List Row) (pid : String) (steps : List FunnelStep)
    (tstart tstop : Option Int) : List (List (String × Int)) :=
  match steps with
  | [] => []
  | f :: fs =>
    funnelStep1 rows pid f tstart tstop ::
      funnelStepsAux rows pid tstart tstop (funnelStep1 rows pid f tstart tstop) fs

/-- Result row of the funnel query. -/
structure FunnelResult where
  step : String
  count : Nat
  deriving DecidableEq

/-- Step label, `"Step k: <event_name or event_type>"`. -/
def stepLabel (i : Nat) (f : FunnelStep) : String :=
  "Step " ++ toString (i + 1) ++ ": " ++ (if f.eventName == "" then f.eventType else f.eventName)

/-- The final UNION ALL: one labelled count per step, in step order. -/
def funnelResultsAux (i : Nat) : List FunnelStep → List (List (String × Int)) →
    List FunnelResult
  | f :: fs, s :: ss => ⟨stepLabel i f, s.length⟩ :: funnelResultsAux (i + 1) fs ss
  | _, _ => []

/-- QueryFunnel: empty step lists yield nil; otherwise one count per step. -/
def QueryFunnel (rows : List Row) (pid : String) (steps : List FunnelStep)
    (tstart tstop : Option Int) : List FunnelResult :=
  if steps.isEmpty then []
  else funnelResultsAux 0 steps (funnelSteps rows pid steps tstart tstop)

/-! ### Facts about the funnel query -/

theorem mem_insertMin_of (l : List (String × Int)) (p : String × Int)
    (S : List (String × Int)) (hl : ∀ q ∈ l, q ∈ S) (hp : p ∈ S) :
    ∀ q ∈ insertMin l p, q ∈ S := by
  induction l with
  | nil =>
    intro q hq
    simp only [insertMin, List.mem_singleton] at hq
    subst hq
    exact hp
  | cons a rest ih =>
    obtain ⟨s, t⟩ := a
    intro q hq
    simp only [insertMin] at hq
    by_cases hst : s == p.1
    · rw [if_pos hst] at hq
      rcases List.mem_cons.mp hq with rfl | hq2
      · rcases min_choice t p.2 with hm | hm
        · rw [hm]; exact hl (s, t) (by simp)
        · rw [hm]
          have hsp : s = p.1 := by simpa using hst
          rw [hsp]
          exact hp
      · exact hl q (by simp [hq2])
    · rw [if_neg hst] at hq
      rcases List.mem_cons.mp hq with rfl | hq2
      · exact hl (s, t) (by simp)
      · exact ih (fun q2 hq2b => hl q2 (by simp [hq2b])) q hq2

theorem foldl_insertMin_sub (l : List (String × Int)) (S : List (String × Int)) :
    ∀ (acc : List (String × Int)), (∀ q ∈ acc, q ∈ S) → (∀ q ∈ l, q ∈ S) →
      ∀ q ∈ l.foldl insertMin acc, q ∈ S := by
  induction l with
  | nil => intro acc hacc _ q hq; exact hacc q hq
  | cons p l ih =>
    intro acc hacc hl q hq
    exact ih (insertMin acc p) (mem_insertMin_of acc p S hacc (hl p (by simp)))
      (fun q2 h => hl q2 (by simp [h])) q hq

theorem mem_groupMin (l : List (String × Int)) : ∀ q ∈ groupMin l, q ∈ l :=
  foldl_insertMin_sub l l [] (by simp) (fun _ h => h)

theorem keys_insertMin_sub (l : List (String × Int)) (p : String × Int) :
    (insertMin l p).map Prod.fst ⊆ p.1 :: l.map Prod.fst := by
  induction l with
  | nil => simp [insertMin]
  | cons a rest ih =>
    obtain ⟨s, t⟩ := a
    simp only [insertMin]
    by_cases hst : s == p.1
    · rw [if_pos hst]
      intro x hx
      simp only [List.map_cons, List.mem_cons] at hx ⊢
      tauto
    · rw [if_neg hst]
      intro x hx
      simp only [List.map_cons, List.mem_cons] at hx ⊢
      rcases hx with rfl | hx
      · tauto
      · have := ih hx
        simp only [List.mem_cons] at this
        tauto

theorem keys_nodup_insertMin (l : List (String × Int)) (p : String × Int)
    (h : (l.map Prod.fst).Nodup) : ((insertMin l p).map Prod.fst).Nodup := by
  induction l with
  | nil => simp [insertMin]
  | cons a rest ih =>
    obtain ⟨s, t⟩ := a
    simp only [insertMin]
    simp only [List.map_cons, List.nodup_cons] at h
    by_cases hst : s == p.1
    · rw [if_pos hst]
      simp only [List.map_cons, List.nodup_cons]
      exact h
    · rw [if_neg hst]
      simp only [List.map_cons, List.nodup_cons]
      refine ⟨?_, ih h.2⟩
      intro hmem
      have hsub := keys_insertMin_sub rest p hmem
      simp only [List.mem_cons] at hsub
      rcases hsub with hs1 | hs2
      · exact absurd (by simpa using hs1 : s == p.1) (by simpa using hst)
      · exact h.1 hs2

theorem foldl_keys_nodup (l : List (String × Int)) :
    ∀ acc : List (String × Int), ((acc.map Prod.fst).Nodup) →
      (((l.foldl insertMin acc).map Prod.fst)).Nodup := by
  induction l with
  | nil => intro acc h; exact h
  | cons p l ih => intro acc h; exact ih (insertMin acc p) (keys_nodup_insertMin acc p h)

theorem groupMin_keys_nodup (l : List (String × Int)) :
    ((groupMin l).map Prod.fst).Nodup :=
  foldl_keys_nodup l [] (by simp)

theorem nodup_length_le (l1 l2 : List String) (h1 : l1.Nodup) (hs : l1 ⊆ l2)
    (h2 : l2.Nodup) : l1.length ≤ l2.length := by
  classical
  calc l1.length = l1.toFinset.card := (List.toFinset_card_of_nodup h1).symm
  _ ≤ l2.toFinset.card := Finset.card_le_card (fun x hx => by
      simp only [List.mem_toFinset] at hx ⊢
      exact hs hx)
  _ = l2.length := List.toFinset_card_of_nodup h2

theorem funnelNextStep_mem (rows : List Row) (pid : String) (f : FunnelStep)
    (tstart tstop : Option Int) (prev : List (String × Int)) :
    ∀ p ∈ funnelNextStep rows pid f tstart tstop prev,
      ∃ ts0, (p.1, ts0) ∈ prev ∧ ∃ r ∈ rows,
        matchesStep pid f tstart tstop r = true ∧ r.sessionID = p.1 ∧ ts0 < r.timestamp := by
  intro p hp
  have hp2 := mem_groupMin _ p hp
  obtain ⟨r, hr, hg⟩ := List.mem_filterMap.mp hp2
  by_cases hm : matchesStep pid f tstart tstop r
  · rw [if_pos hm] at hg
    cases hl : lookupTs prev r.sessionID with
    | none => rw [hl] at hg; simp at hg
    | some ts0 =>
      rw [hl] at hg
      dsimp only at hg
      by_cases hlt : ts0 < r.timestamp
      · rw [if_pos hlt] at hg
        have hpe : (r.sessionID, r.timestamp) = p := by simpa using hg
        subst hpe
        refine ⟨ts0, ?_, r, hr, hm, rfl, hlt⟩
        unfold lookupTs at hl
        cases hf : prev.find? (fun q => q.1 == r.sessionID) with
        | none => rw [hf] at hl; simp at hl
        | some q =>
          rw [hf] at hl
          have hq1 : q.1 = r.sessionID := by simpa using List.find?_some hf
          have hq2 : q.2 = ts0 := by simpa using hl
          have hqm := List.mem_of_find?_eq_some hf
          show (r.sessionID, ts0) ∈ prev
          rw [← hq1, ← hq2]
          exact hqm
      · rw [if_neg hlt] at hg; simp at hg
  · rw [if_neg hm] at hg; simp at hg

theorem funnelNextStep_keys_sub (rows : List Row) (pid : String) (f : FunnelStep)
    (tstart tstop : Option Int) (prev : List (String × Int)) :
    (funnelNextStep rows pid f tstart tstop prev).map Prod.fst ⊆ prev.map Prod.fst := by
  intro s hs
  obtain ⟨p, hp, rfl⟩ := List.mem_map.mp hs
  obtain ⟨ts0, hts0, _⟩ := funnelNextStep_mem rows pid f tstart tstop prev p hp
  exact List.mem_map.mpr ⟨(p.1, ts0), hts0, rfl⟩

theorem funnelNextStep_length_le (rows : List Row) (pid : String) (f : FunnelStep)
    (tstart tstop : Option Int) (prev : List (String × Int))
    (hprev : (prev.map Prod.fst).Nodup) :
    (funnelNextStep rows pid f tstart tstop prev).length ≤ prev.length := by
  have h1 := groupMin_keys_nodup (rows.filterMap (fun r =>
    if matchesStep pid f tstart tstop r then
      match lookupTs prev r.sessionID with
      | some ts0 => if ts0 < r.timestamp then some (r.sessionID, r.timestamp) else none
      | none => none
    else none))
  have hlen := nodup_length_le _ _ h1 (funnelNextStep_keys_sub rows pid f tstart tstop prev)
    hprev
  simpa using hlen

theorem funnelStepsAux_length (rows : List Row) (pid : String) (tstart tstop : Option Int) :
    ∀ (fs : List FunnelStep) (prev : List (String × Int)),
      (funnelStepsAux rows pid tstart tstop prev fs).length = fs.length := by
  intro fs
  induction fs with
  | nil => intro prev; rfl
  | cons f fs ih => intro prev; simp [funnelStepsAux, ih]

theorem funnelSteps_length (rows : List Row) (pid : String) (steps : List FunnelStep)
    (tstart tstop : Option Int) :
    (funnelSteps rows pid steps tstart tstop).length = steps.length := by
  cases steps with
  | nil => rfl
  | cons f fs => simp [funnelSteps, funnelStepsAux_length]

theorem funnelStepsAux_chain (rows : List Row) (pid : String) (tstart tstop : Option Int) :
    ∀ (fs : List FunnelStep) (prev : List (String × Int)) (k : Nat), k < fs.length →
      (funnelStepsAux rows pid tstart tstop prev fs).getD k []
        = funnelNextStep rows pid (fs.getD k ⟨"", ""⟩) tstart tstop
            ((prev :: funnelStepsAux rows pid tstart tstop prev fs).getD k []) := by
  intro fs
  induction fs with
  | nil => intro prev k hk; simp at hk
  | cons f fs ih =>
    intro prev k hk
    cases k with
    | zero => rfl
    | succ k =>
      have h := ih (funnelNextStep rows pid f tstart tstop prev) k (by simpa using hk)
      simpa [funnelStepsAux] using h

theorem funnelSteps_keys_nodup (rows : List Row) (pid : String) (steps : List FunnelStep)
    (tstart tstop : Option Int) (k : Nat) :
    (((funnelSteps rows pid steps tstart tstop).getD k []).map Prod.fst).Nodup := by
  have hmem : ∀ x ∈ funnelSteps rows pid steps tstart tstop, (x.map Prod.fst).Nodup := by
    intro x hx
    cases steps with
    | nil => simp [funnelSteps] at hx
    | cons f fs =>
      simp only [funnelSteps, List.mem_cons] at hx
      rcases hx with rfl | hx
      · exact groupMin_keys_nodup _
      · revert hx
        generalize funnelStep1 rows pid f tstart tstop = prev
        induction fs generalizing prev with
        | nil => intro hx; simp [funnelStepsAux] at hx
        | cons g gs ih =>
          intro hx
          simp only [funnelStepsAux, List.mem_cons] at hx
          rcases hx with rfl | hx
          · exact groupMin_keys_nodup _
          · exact ih _ hx
  by_cases hk : k < (funnelSteps rows pid steps tstart tstop).length
  · rw [List.getD_eq_getElem _ _ hk]
    exact hmem _ (List.getElem_mem hk)
  · rw [List.getD_eq_default _ _ (by omega)]
    simp

theorem funnelResultsAux_length :
    ∀ (i : Nat) (fs : List FunnelStep) (ss : List (List (String × Int))),
      (funnelResultsAux i fs ss).length = min fs.length ss.length := by
  intro i fs
  induction fs generalizing i with
  | nil => intro ss; cases ss <;> simp [funnelResultsAux]
  | cons f fs ih =>
    intro ss
    cases ss with
    | nil => simp [funnelResultsAux]
    | cons s ss => simp [funnelResultsAux, ih (i + 1) ss]; omega

theorem funnelResultsAux_getD :
    ∀ (i : Nat) (fs : List FunnelStep) (ss : List (List (String × Int))) (k : Nat),
      k < fs.length → k < ss.length →
      (funnelResultsAux i fs ss).getD k ⟨"", 0⟩
        = ⟨stepLabel (i + k) (fs.getD k ⟨"", ""⟩), (ss.getD k []).length⟩ := by
  intro i fs
  induction fs generalizing i with
  | nil => intro ss k hk; simp at hk
  | cons f fs ih =>
    intro ss k hk1 hk2
    cases ss with
    | nil => simp at hk2
    | cons s ss =>
      cases k with
      | zero => simp [funnelResultsAux]
      | succ k =>
        have h := ih (i + 1) ss k (by simpa using hk1) (by simpa using hk2)
        simp only [funnelResultsAux, List.getD_cons_succ]
        rw [h]
        congr 2
        omega

/-- C2: QueryFunnel on a non-empty step list returns one labelled count per
step, in step order, the count being the size of the step's session set;
every session counted at step k+1 is also counted at step k (so counts are
monotonically non-increasing); and a session enters step k+1 only through
an event matching the step filter whose timestamp is strictly greater than
the timestamp recorded for that session at step k. -/
theorem C2_queryFunnel_monotone (rows : List Row) (pid : String) (steps : List FunnelStep)
    (tstart tstop : Option Int) (hne : steps ≠ []) :
    (QueryFunnel rows pid steps tstart tstop).length = steps.length
    ∧ (∀ k, k < steps.length →
        (QueryFunnel rows pid steps tstart tstop).getD k ⟨"", 0⟩
          = ⟨stepLabel k (steps.getD k ⟨"", ""⟩),
             ((funnelSteps rows pid steps tstart tstop).getD k []).length⟩)
    ∧ (∀ k, k + 1 < steps.length →
        (((funnelSteps rows pid steps tstart tstop).getD (k + 1) []).map Prod.fst
          ⊆ ((funnelSteps rows pid steps tstart tstop).getD k []).map Prod.fst)
        ∧ ((funnelSteps rows pid steps tstart tstop).getD (k + 1) []).length
            ≤ ((funnelSteps rows pid steps tstart tstop).getD k []).length
        ∧ (∀ p ∈ (funnelSteps rows pid steps tstart tstop).getD (k + 1) [],
            ∃ ts0, (p.1, ts0) ∈ (funnelSteps rows pid steps tstart tstop).getD k []
            ∧ ∃ r ∈ rows, matchesStep pid (steps.getD (k + 1) ⟨"", ""⟩) tstart tstop r = true
                ∧ r.sessionID = p.1 ∧ ts0 < r.timestamp)) := by
  obtain ⟨f, fs, rfl⟩ : ∃ f fs, steps = f :: fs := by
    cases steps with
    | nil => exact absurd rfl hne
    | cons f fs => exact ⟨f, fs, rfl⟩
  have hQ : QueryFunnel rows pid (f :: fs) tstart tstop
      = funnelResultsAux 0 (f :: fs) (funnelSteps rows pid (f :: fs) tstart tstop) := by
    unfold QueryFunnel
    rw [if_neg (by simp)]
  have hchain : ∀ k, k + 1 < (f :: fs).length →
      (funnelSteps rows pid (f :: fs) tstart tstop).getD (k + 1) []
        = funnelNextStep rows pid ((f :: fs).getD (k + 1) ⟨"", ""⟩) tstart tstop
            ((funnelSteps rows pid (f :: fs) tstart tstop).getD k []) := by
    intro k hk
    have h := funnelStepsAux_chain rows pid tstart tstop fs
      (funnelStep1 rows pid f tstart tstop) k (by simpa using hk)
    simpa [funnelSteps] using h
  refine ⟨?_, ?_, ?_⟩
  · rw [hQ, funnelResultsAux_length, funnelSteps_length]
    simp
  · intro k hk
    rw [hQ, funnelResultsAux_getD 0 _ _ k hk (by rw [funnelSteps_length]; exact hk)]
    simp
  · intro k hk
    rw [hchain k hk]
    refine ⟨funnelNextStep_keys_sub _ _ _ _ _ _,
      funnelNextStep_length_le _ _ _ _ _ _
        (funnelSteps_keys_nodup rows pid (f :: fs) tstart tstop k),
      funnelNextStep_mem _ _ _ _ _ _⟩

/-- C2 witness: Scenario C of the specification — three sessions, of which
only the first completes all three steps, the second reaches step 2 and
the third only step 1; the funnel counts are 3, 2, 1 in step order. -/
theorem C2_queryFunnel_monotone_witness :
    (QueryFunnel
        [⟨"p1", "s1", "", "pageview", none, "/", 1⟩,
         ⟨"p1", "s1", "", "click", some "Add to Cart", "/", 2⟩,
         ⟨"p1", "s1", "", "pageview", some "/checkout", "/checkout", 3⟩,
         ⟨"p1", "s2", "", "pageview", none, "/", 1⟩,
         ⟨"p1", "s2", "", "click", some "Add to Cart", "/", 2⟩,
         ⟨"p1", "s3", "", "pageview", none, "/", 1⟩]
        "p1" [⟨"pageview", ""⟩, ⟨"click", "Add to Cart"⟩, ⟨"pageview", "/checkout"⟩]
        none none).length
      = [FunnelStep.mk "pageview" "", ⟨"click", "Add to Cart"⟩,
         ⟨"pageview", "/checkout"⟩].length
    ∧ QueryFunnel
        [⟨"p1", "s1", "", "pageview", none, "/", 1⟩,
         ⟨"p1", "s1", "", "click", some "Add to Cart", "/", 2⟩,
         ⟨"p1", "s1", "", "pageview", some "/checkout", "/checkout", 3⟩,
         ⟨"p1", "s2", "", "pageview", none, "/", 1⟩,
         ⟨"p1", "s2", "", "click", some "Add to Cart", "/", 2⟩,
         ⟨"p1", "s3", "", "pageview", none, "/", 1⟩]
        "p1" [⟨"pageview", ""⟩, ⟨"click", "Add to Cart"⟩, ⟨"pageview", "/checkout"⟩]
        none none
      = [⟨"Step 1: pageview", 3⟩, ⟨"Step 2: Add to Cart", 2⟩, ⟨"Step 3: /checkout", 1⟩] :=
  ⟨(C2_queryFunnel_monotone
      [⟨"p1", "s1", "", "pageview", none, "/", 1⟩,
       ⟨"p1", "s1", "", "click", some "Add to Cart", "/", 2⟩,
       ⟨"p1", "s1", "", "pageview", some "/checkout", "/checkout", 3⟩,
       ⟨"p1", "s2", "", "pageview", none, "/", 1⟩,
       ⟨"p1", "s2", "", "click", some "Add to Cart", "/", 2⟩,
       ⟨"p1", "s3", "", "pageview", none, "/", 1⟩]
      "p1" [⟨"pageview", ""⟩, ⟨"click", "Add to Cart"⟩, ⟨"pageview", "/checkout"⟩]
      none none (by decide)).1,
   by decide⟩

/-! ### Trends with breakdown (internal/storage/duckdb.go,
DuckDB.QueryTrendsBreakdown)

The SQL part of the query delivers `(bucket, series, count)` rows grouped
by (bucket, series) and ordered by bucket then series; the Go
post-processing — grouping per series in first-seen order, scoring totals,
`sort.Slice` descending by total, keeping the top 8 — is embedded below
over that row list. `sort.Slice` is an unstable sort; it is modelled with
insertion sort, which realizes one of its admissible outcomes. -/

/-- Row scanned from the breakdown SQL result. -/
structure BRow where
  bucket : String
  series : String
  count : Int
  deriving DecidableEq

/-- Result series of the breakdown query; points are (bucket, count). -/
structure TrendSeries where
  name : String
  data : List (String × Int)
  deriving DecidableEq

/-- Processing of one scanned row: append its point to the row's series
(first-seen association list), creating the series at the end on first
sight — `seriesData`/`seriesOrder` of the Go loop. -/
def addRow (acc : List (String × List (String × Int))) (r : BRow) :
    List (String × List (String × Int)) :=
  match acc with
  | [] => [(r.series, [(r.bucket, r.count)])]
  | (name, entries) :: rest =>
    if name == r.series then (name, entries ++ [(r.bucket, r.count)]) :: rest
    else (name, entries) :: addRow rest r

/-- Per-series points in first-seen series order. -/
def collectSeries (rows : List BRow) : List (String × List (String × Int)) :=
  rows.foldl addRow []

/-- Total count of one series over the range. -/
def seriesTotal (entries : List (String × Int)) : Int := (entries.map Prod.snd).sum

/-- Per-series totals, in first-seen series order (the `scores` slice). -/
def scoreList (rows : List BRow) : List (String × Int) :=
  (collectSeries rows).map (fun p => (p.1, seriesTotal p.2))

/-- The scores sorted descending by total (`sort.Slice` on the comparator
`total_i > total_j`; modelled with insertion sort). -/
def sortedScores (rows : List BRow) : List (String × Int) :=
  List.insertionSort (fun a b : String × Int => b.2 ≤ a.2) (scoreList rows)

/-- The names of the (up to) 8 series with the largest totals: score each
series, sort descending by total, take 8. -/
def topSeriesNames (rows : List BRow) : List String :=
  ((sortedScores rows).take 8).map Prod.fst

/-- QueryTrendsBreakdown post-processing: keep the top-8 series, in
first-seen order, with their points. -/
def QueryTrendsBreakdown (rows : List BRow) : List TrendSeries :=
  ((collectSeries rows).filter (fun p => (topSeriesNames rows).contains p.1)).map
    (fun p => ⟨p.1, p.2⟩)

/-- First-seen order of the series column of the scanned rows. -/
def firstSeenSeries (rows : List BRow) : List String :=
  rows.foldl (fun ks r => if ks.contains r.series then ks else ks ++ [r.series]) []

/-! ### Facts about the breakdown post-processing -/

theorem keys_addRow (acc : List (String × List (String × Int))) (r : BRow) :
    (addRow acc r).map Prod.fst
      = if (acc.map Prod.fst).contains r.series then acc.map Prod.fst
        else acc.map Prod.fst ++ [r.series] := by
  induction acc with
  | nil => simp [addRow]
  | cons a rest ih =>
    obtain ⟨name, entries⟩ := a
    simp only [addRow]
    by_cases hn : name = r.series
    · subst hn
      rw [if_pos (by simp)]
      simp
    · rw [if_neg (by simpa using hn)]
      simp only [List.map_cons, List.contains_cons, ih]
      have : (r.series == name) = false := by simpa using fun h => hn h.symm
      rw [this]
      simp only [Bool.false_or]
      by_cases hc : (List.map Prod.fst rest).contains r.series
      · rw [if_pos hc, if_pos hc]
      · rw [if_neg hc, if_neg hc]
        simp

theorem collectKeys_firstSeen (rows : List BRow) :
    (collectSeries rows).map Prod.fst = firstSeenSeries rows := by
  suffices h : ∀ (rs : List BRow) (acc : List (String × List (String × Int))),
      (rs.foldl addRow acc).map Prod.fst
        = rs.foldl (fun ks r => if ks.contains r.series then ks else ks ++ [r.series])
            (acc.map Prod.fst) by
    exact h rows []
  intro rs
  induction rs with
  | nil => intro acc; rfl
  | cons r rs ih =>
    intro acc
    simp only [List.foldl_cons]
    rw [ih (addRow acc r), keys_addRow]

theorem addRow_eq (acc : List (String × List (String × Int))) (r : BRow)
    (hk : (acc.map Prod.fst).Nodup) :
    addRow acc r
      = if (acc.map Prod.fst).contains r.series
        then acc.map (fun p =>
          if p.1 == r.series then (p.1, p.2 ++ [(r.bucket, r.count)]) else p)
        else acc ++ [(r.series, [(r.bucket, r.count)])] := by
  induction acc with
  | nil => simp [addRow]
  | cons a rest ih =>
    obtain ⟨name, entries⟩ := a
    simp only [List.map_cons, List.nodup_cons] at hk
    simp only [addRow]
    by_cases hn : name = r.series
    · subst hn
      rw [if_pos (by simp)]
      rw [if_pos (by simp [List.contains_cons])]
      have htail : rest.map (fun p =>
          if p.1 == r.series then (p.1, p.2 ++ [(r.bucket, r.count)]) else p) = rest := by
        have hid : ∀ p ∈ rest, (if p.1 == r.series
            then (p.1, p.2 ++ [(r.bucket, r.count)]) else p) = id p := by
          intro p hp
          have hmem : p.1 ∈ rest.map Prod.fst := List.mem_map.mpr ⟨p, hp, rfl⟩
          have hne : ¬((p.1 == r.series) = true) := by
            intro hEq
            exact hk.1 ((show p.1 = r.series by simpa using hEq) ▸ hmem)
          rw [if_neg hne]
          rfl
        rw [List.map_congr_left hid, List.map_id]
      rw [List.map_cons, if_pos (show (r.series == r.series) = true by simp), htail]
    · have hne1 : ¬((name == r.series) = true) := by simpa using hn
      rw [if_neg hne1]
      have hrn : (r.series == name) = false := by
        simpa using fun h : r.series = name => hn h.symm
      by_cases hc : (rest.map Prod.fst).contains r.series
      · have hcc : (List.map Prod.fst ((name, entries) :: rest)).contains r.series = true := by
          simp only [List.map_cons, List.contains_cons, hrn, Bool.false_or]
          exact hc
        rw [if_pos hcc, List.map_cons, if_neg hne1, ih hk.2, if_pos hc]
      · have hcc : ¬((List.map Prod.fst ((name, entries) :: rest)).contains r.series = true) := by
          simp only [List.map_cons, List.contains_cons, hrn, Bool.false_or]
          exact hc
        rw [if_neg hcc, ih hk.2, if_neg hc]
        simp

theorem addRow_inv (seen : List BRow) (acc : List (String × List (String × Int)))
    (r : BRow)
    (h1 : (acc.map Prod.fst).Nodup)
    (h2 : ∀ p ∈ acc, p.2 = (seen.filter (fun q => q.series == p.1)).map
      (fun q => (q.bucket, q.count)))
    (h3 : ∀ q ∈ seen, q.series ∈ acc.map Prod.fst) :
    ((addRow acc r).map Prod.fst).Nodup
    ∧ (∀ p ∈ addRow acc r, p.2 = ((seen ++ [r]).filter (fun q => q.series == p.1)).map
        (fun q => (q.bucket, q.count)))
    ∧ (∀ q ∈ seen ++ [r], q.series ∈ (addRow acc r).map Prod.fst) := by
  refine ⟨?_, ?_, ?_⟩
  · rw [keys_addRow]
    by_cases hc : (acc.map Prod.fst).contains r.series
    · rw [if_pos hc]; exact h1
    · rw [if_neg hc]
      rw [List.nodup_append]
      refine ⟨h1, by simp, ?_⟩
      intro x hx
      simp only [List.mem_singleton]
      intro hxr
      subst hxr
      exact absurd (List.elem_iff.mpr hx) (by simpa using hc)
  · rw [addRow_eq acc r h1]
    by_cases hc : (acc.map Prod.fst).contains r.series
    · rw [if_pos hc]
      intro p hp
      obtain ⟨p0, hp0, rfl⟩ := List.mem_map.mp hp
      by_cases hs : p0.1 == r.series
      · rw [if_pos hs]
        have hs2 : p0.1 = r.series := by simpa using hs
        have he := h2 p0 hp0
        have hr : (r.series == p0.1) = true := by simp [hs2]
        simp only [List.filter_append, List.filter_cons, hr, List.filter_nil, List.map_append]
        simp [he]
      · rw [if_neg hs]
        have he := h2 p0 hp0
        have hr : (r.series == p0.1) = false := by
          rw [beq_eq_false_iff_ne]
          have hs2 : p0.1 ≠ r.series := by simpa using hs
          exact fun h => hs2 h.symm
        simp only [List.filter_append, List.filter_cons, hr, List.filter_nil]
        simpa using he
    · rw [if_neg hc]
      intro p hp
      rcases List.mem_append.mp hp with hp | hp
      · have he := h2 p hp
        have hr : (r.series == p.1) = false := by
          rw [beq_eq_false_iff_ne]
          intro hEq
          have : p.1 ∈ acc.map Prod.fst := List.mem_map.mpr ⟨p, hp, rfl⟩
          exact absurd (List.elem_iff.mpr (hEq ▸ this)) (by simpa using hc)
        simp only [List.filter_append, List.filter_cons, hr, List.filter_nil]
        simpa using he
      · simp only [List.mem_singleton] at hp
        subst hp
        have hseen : seen.filter (fun q => q.series == r.series) = [] := by
          rw [List.filter_eq_nil_iff]
          intro q hq
          simp only [beq_iff_eq]
          intro hEq
          exact absurd (List.elem_iff.mpr (hEq ▸ h3 q hq)) (by simpa using hc)
        simp [List.filter_append, hseen]
  · intro q hq
    rw [keys_addRow]
    rcases List.mem_append.mp hq with hq | hq
    · have := h3 q hq
      by_cases hc : (acc.map Prod.fst).contains r.series
      · rw [if_pos hc]; exact this
      · rw [if_neg hc]; exact List.mem_append.mpr (Or.inl this)
    · simp only [List.mem_singleton] at hq
      rw [hq]
      by_cases hc : (acc.map Prod.fst).contains r.series
      · rw [if_pos hc]
        exact List.elem_iff.mp hc
      · rw [if_neg hc]
        simp

theorem collect_spec (rows : List BRow) :
    ((collectSeries rows).map Prod.fst).Nodup
    ∧ ∀ p ∈ collectSeries rows,
        p.2 = (rows.filter (fun q => q.series == p.1)).map (fun q => (q.bucket, q.count)) := by
  suffices h : ∀ (rs : List BRow) (acc : List (String × List (String × Int)))
      (seen : List BRow),
      (acc.map Prod.fst).Nodup →
      (∀ p ∈ acc, p.2 = (seen.filter (fun q => q.series == p.1)).map
        (fun q => (q.bucket, q.count))) →
      (∀ q ∈ seen, q.series ∈ acc.map Prod.fst) →
      ((rs.foldl addRow acc).map Prod.fst).Nodup
      ∧ ∀ p ∈ rs.foldl addRow acc,
          p.2 = ((seen ++ rs).filter (fun q => q.series == p.1)).map
            (fun q => (q.bucket, q.count)) by
    have h2 := h rows [] [] (by simp) (by simp) (by simp)
    exact ⟨h2.1, by simpa using h2.2⟩
  intro rs
  induction rs with
  | nil =>
    intro acc seen ha hb _
    exact ⟨ha, by simpa using hb⟩
  | cons r rs ih =>
    intro acc seen ha hb hcv
    obtain ⟨i1, i2, i3⟩ := addRow_inv seen acc r ha hb hcv
    have h := ih (addRow acc r) (seen ++ [r]) i1 i2 i3
    refine ⟨h.1, ?_⟩
    intro p hp
    have := h.2 p hp
    simpa [List.append_assoc] using this

/-- Strict lexicographic order on character sequences, modelling the SQL
ORDER BY collation on VARCHAR values. -/
def charsLt : List Char → List Char → Bool
  | x :: xs, y :: ys =>
    if x < y then true
    else if y < x then false
    else charsLt xs ys
  | [], ys => !ys.isEmpty
  | _ :: _, [] => false

theorem charsLt_irrefl : ∀ l : List Char, charsLt l l = false := by
  intro l
  induction l with
  | nil => rfl
  | cons a as ih => simp [charsLt, ih]

theorem key_inj_of_nodup {β : Type} (l : List (String × β))
    (h : (l.map Prod.fst).Nodup) :
    ∀ a ∈ l, ∀ b ∈ l, a.1 = b.1 → a = b := by
  induction l with
  | nil => simp
  | cons x l ih =>
    simp only [List.map_cons, List.nodup_cons] at h
    intro a ha b hb hab
    rcases List.mem_cons.mp ha with rfl | ha2 <;> rcases List.mem_cons.mp hb with rfl | hb2
    · rfl
    · exact absurd (hab ▸ List.mem_map.mpr ⟨b, hb2, rfl⟩) h.1
    · exact absurd (hab ▸ List.mem_map.mpr ⟨a, ha2, rfl⟩) h.1
    · exact ih h.2 a ha2 b hb2 hab

theorem sortedScores_perm (rows : List BRow) : (sortedScores rows).Perm (scoreList rows) :=
  List.perm_insertionSort _ _

theorem sortedScores_sorted (rows : List BRow) :
    (sortedScores rows).Pairwise (fun a b => b.2 ≤ a.2) := by
  haveI ht : IsTotal (String × Int) (fun a b => b.2 ≤ a.2) := ⟨fun a b => le_total b.2 a.2⟩
  haveI htr : IsTrans (String × Int) (fun a b => b.2 ≤ a.2) :=
    ⟨fun _ _ _ hab hbc => le_trans hbc hab⟩
  exact List.sorted_insertionSort _ _

theorem scoreList_keys (rows : List BRow) :
    (scoreList rows).map Prod.fst = (collectSeries rows).map Prod.fst := by
  simp [scoreList, List.map_map]

theorem sortedScores_keys_nodup (rows : List BRow) :
    ((sortedScores rows).map Prod.fst).Nodup := by
  rw [List.Perm.nodup_iff (List.Perm.map Prod.fst (sortedScores_perm rows)),
    scoreList_keys]
  exact (collect_spec rows).1

theorem topSeriesNames_nodup (rows : List BRow) : (topSeriesNames rows).Nodup := by
  have hsub : (topSeriesNames rows).Sublist ((sortedScores rows).map Prod.fst) := by
    rw [topSeriesNames, List.map_take]
    exact List.take_sublist _ _
  exact hsub.nodup (sortedScores_keys_nodup rows)

theorem topSeriesNames_mem (rows : List BRow) (n : String) (hn : n ∈ topSeriesNames rows) :
    ∃ p ∈ collectSeries rows, p.1 = n := by
  rw [topSeriesNames] at hn
  obtain ⟨pair, hpair, rfl⟩ := List.mem_map.mp hn
  have h1 : pair ∈ sortedScores rows := (List.take_sublist _ _).mem hpair
  have h2 : pair ∈ scoreList rows := (sortedScores_perm rows).mem_iff.mp h1
  obtain ⟨p, hp, rfl⟩ := List.mem_map.mp h2
  exact ⟨p, hp, rfl⟩

/-- C9: QueryTrendsBreakdown returns `min 8 (number of series)` series;
every returned series has a total at least as large as every series left
out (the returned ones are the top 8 by total); the returned series appear
in first-seen insertion order; and, since the SQL orders its rows by
bucket (then series) with distinct (bucket, series) groups, the points
inside each returned series are strictly ordered by bucket. -/
theorem C9_trendsBreakdown_top8 (rows : List BRow)
    (hsorted : rows.Pairwise (fun a b =>
      charsLt a.bucket.data b.bucket.data = true
      ∨ (a.bucket = b.bucket ∧ charsLt a.series.data b.series.data = true))) :
    (QueryTrendsBreakdown rows).length = min 8 (collectSeries rows).length
    ∧ (∀ p ∈ collectSeries rows, ∀ q ∈ collectSeries rows,
        p.1 ∈ (QueryTrendsBreakdown rows).map TrendSeries.name →
        q.1 ∉ (QueryTrendsBreakdown rows).map TrendSeries.name →
        seriesTotal q.2 ≤ seriesTotal p.2)
    ∧ ((QueryTrendsBreakdown rows).map TrendSeries.name).Sublist (firstSeenSeries rows)
    ∧ (∀ ser ∈ QueryTrendsBreakdown rows,
        (ser.data.map Prod.fst).Pairwise (fun x y => charsLt x.data y.data = true)) := by
  have hckeys := (collect_spec rows).1
  have hentries := (collect_spec rows).2
  have hnames : (QueryTrendsBreakdown rows).map TrendSeries.name
      = ((collectSeries rows).filter
          (fun p => (topSeriesNames rows).contains p.1)).map Prod.fst := by
    rw [QueryTrendsBreakdown, List.map_map]
    rfl
  have hnamesub : ∀ n ∈ (QueryTrendsBreakdown rows).map TrendSeries.name,
      n ∈ topSeriesNames rows := by
    intro n hn
    rw [hnames] at hn
    obtain ⟨p, hp, rfl⟩ := List.mem_map.mp hn
    exact List.elem_iff.mp ((List.mem_filter.mp hp).2)
  have htopsub : ∀ n ∈ topSeriesNames rows,
      n ∈ (QueryTrendsBreakdown rows).map TrendSeries.name := by
    intro n hn
    obtain ⟨p, hp, rfl⟩ := topSeriesNames_mem rows n hn
    rw [hnames]
    refine List.mem_map.mpr ⟨p, List.mem_filter.mpr ⟨hp, ?_⟩, rfl⟩
    exact List.elem_iff.mpr hn
  have hresnodup : ((QueryTrendsBreakdown rows).map TrendSeries.name).Nodup := by
    rw [hnames]
    have : (((collectSeries rows).filter
        (fun p => (topSeriesNames rows).contains p.1)).map Prod.fst).Sublist
        ((collectSeries rows).map Prod.fst) :=
      List.Sublist.map Prod.fst (List.filter_sublist _)
    exact this.nodup hckeys
  refine ⟨?_, ?_, ?_, ?_⟩
  · have hlen1 : (QueryTrendsBreakdown rows).length
        = ((QueryTrendsBreakdown rows).map TrendSeries.name).length :=
      (List.length_map _ _).symm
    have htoplen : (topSeriesNames rows).length = min 8 (collectSeries rows).length := by
      rw [topSeriesNames, List.length_map, List.length_take,
        (sortedScores_perm rows).length_eq, scoreList, List.length_map]
    have hle1 := nodup_length_le _ _ hresnodup hnamesub (topSeriesNames_nodup rows)
    have hle2 := nodup_length_le _ _ (topSeriesNames_nodup rows) htopsub hresnodup
    omega
  · intro p hp q hq hpin hqnot
    have hptop : p.1 ∈ topSeriesNames rows := hnamesub _ hpin
    have hqtop : q.1 ∉ topSeriesNames rows := fun h => hqnot (htopsub _ h)
    have hppair : (p.1, seriesTotal p.2) ∈ sortedScores rows :=
      (sortedScores_perm rows).mem_iff.mpr (List.mem_map.mpr ⟨p, hp, rfl⟩)
    have hqpair : (q.1, seriesTotal q.2) ∈ sortedScores rows :=
      (sortedScores_perm rows).mem_iff.mpr (List.mem_map.mpr ⟨q, hq, rfl⟩)
    obtain ⟨tp, htp, htp1⟩ : ∃ tp ∈ (sortedScores rows).take 8, tp.1 = p.1 := by
      rw [topSeriesNames] at hptop
      obtain ⟨tp, htp, h1⟩ := List.mem_map.mp hptop
      exact ⟨tp, htp, h1⟩
    have htpe : tp = (p.1, seriesTotal p.2) :=
      key_inj_of_nodup _ (sortedScores_keys_nodup rows) tp
        ((List.take_sublist _ _).mem htp) _ hppair (by simpa using htp1)
    have hqdrop : (q.1, seriesTotal q.2) ∈ (sortedScores rows).drop 8 := by
      have := hqpair
      rw [← List.take_append_drop 8 (sortedScores rows)] at this
      rcases List.mem_append.mp this with h | h
      · exact absurd (List.mem_map.mpr ⟨_, h, rfl⟩)
          (by rw [topSeriesNames] at hqtop; exact hqtop)
      · exact h
    have hpw := sortedScores_sorted rows
    rw [← List.take_append_drop 8 (sortedScores rows)] at hpw
    have := (List.pairwise_append.mp hpw).2.2 tp htp _ hqdrop
    rw [htpe] at this
    exact this
  · rw [hnames]
    have hsl : ((List.filter (fun p => (topSeriesNames rows).contains p.1)
        (collectSeries rows)).map Prod.fst).Sublist
        ((collectSeries rows).map Prod.fst) :=
      List.Sublist.map Prod.fst (List.filter_sublist _)
    rw [collectKeys_firstSeen rows] at hsl
    exact hsl
  · intro ser hser
    obtain ⟨p, hpf, rfl⟩ := List.mem_map.mp hser
    have hp : p ∈ collectSeries rows := (List.mem_filter.mp hpf).1
    have hdata := hentries p hp
    show ((p.2).map Prod.fst).Pairwise (fun x y => charsLt x.data y.data = true)
    rw [hdata, List.map_map]
    have hfp : (rows.filter (fun q => q.series == p.1)).Pairwise
        (fun a b => charsLt a.bucket.data b.bucket.data = true) := by
      have hsub := List.Pairwise.sublist
        (List.filter_sublist (p := fun q => q.series == p.1) rows) hsorted
      refine hsub.imp_of_mem ?_
      intro a b ha hb hab
      have hsa : a.series = p.1 := by simpa using (List.mem_filter.mp ha).2
      have hsb : b.series = p.1 := by simpa using (List.mem_filter.mp hb).2
      rcases hab with h | h
      · exact h
      · have h2 := h.2
        rw [hsa, hsb] at h2
        rw [charsLt_irrefl] at h2
        exact absurd h2 (by simp)
    exact List.pairwise_map.mpr hfp

/-- C9 witness: a concrete sorted SQL result with three series over two
buckets; all three series are kept (min 8 3), in first-seen order, with
their points in bucket order. -/
theorem C9_trendsBreakdown_top8_witness :
    (QueryTrendsBreakdown
        [⟨"2024-01-01", "click", 5⟩, ⟨"2024-01-01", "pageview", 10⟩,
         ⟨"2024-01-02", "click", 2⟩, ⟨"2024-01-02", "error", 1⟩]).length
      = min 8 (collectSeries
        [⟨"2024-01-01", "click", 5⟩, ⟨"2024-01-01", "pageview", 10⟩,
         ⟨"2024-01-02", "click", 2⟩, ⟨"2024-01-02", "error", 1⟩]).length
    ∧ QueryTrendsBreakdown
        [⟨"2024-01-01", "click", 5⟩, ⟨"2024-01-01", "pageview", 10⟩,
         ⟨"2024-01-02", "click", 2⟩, ⟨"2024-01-02", "error", 1⟩]
      = [⟨"click", [("2024-01-01", 5), ("2024-01-02", 2)]⟩,
         ⟨"pageview", [("2024-01-01", 10)]⟩,
         ⟨"error", [("2024-01-02", 1)]⟩] :=
  ⟨(C9_trendsBreakdown_top8
      [⟨"2024-01-01", "click", 5⟩, ⟨"2024-01-01", "pageview", 10⟩,
       ⟨"2024-01-02", "click", 2⟩, ⟨"2024-01-02", "error", 1⟩] (by decide)).1,
   by decide⟩

end Clicknest
